import Mathlib

/-!
Verification development for the offsong ChordPro/OnSong renderer.

This file embeds, as executable Lean definitions, the chord-transposition
engine and ChordPro normalization of app.py together with the legacy
WebChord renderer of webchord.py, and proves the specified properties of
these functions.  Strings are modelled as lists of characters; Python
integer arithmetic is modelled with Int (Python percent on a positive
modulus agrees with Int.emod); functions that can raise exceptions are
modelled with Option.
-/

namespace Offsong

/-! ### Python string helpers -/

/-- ASCII whitespace recognized by Python str.strip / lstrip. -/
def pyIsSpace (c : Char) : Bool :=
  c = ' ' || c = '\t' || c = '\n' || c = '\r' || c = '\x0b' || c = '\x0c'

/-- Python str.lstrip with default argument. -/
def stripLead (l : List Char) : List Char := l.dropWhile pyIsSpace

/-- Python str.strip with default argument: remove leading and trailing whitespace. -/
def pyStrip (l : List Char) : List Char :=
  ((l.dropWhile pyIsSpace).reverse.dropWhile pyIsSpace).reverse

/-- ASCII lowercasing of a single character, as Python str.lower does on ASCII text. -/
def pyLowerChar (c : Char) : Char :=
  if 'A' ≤ c && c ≤ 'Z' then Char.ofNat (c.toNat + 32) else c

/-- Python str.lower on ASCII text. -/
def pyLower (l : List Char) : List Char := l.map pyLowerChar

/-- Split a list at the first occurrence of a target character: returns the
part strictly before it and the part strictly after it.  Models Python
s.split(t, 1) and s.find(t). -/
def splitFirst (t : Char) : List Char → Option (List Char × List Char)
  | [] => none
  | c :: rest =>
    if c = t then some ([], rest)
    else (splitFirst t rest).map (fun pr => (c :: pr.1, pr.2))

/-- Whether a list starts with the given prefix, models Python str.startswith. -/
def startsWithL (pre l : List Char) : Bool := pre.isPrefixOf l

/-! ### Pitch model (app.py lines 75-89) -/

/-- NOTE_SEQUENCE_SHARP from app.py. -/
def NOTE_SEQUENCE_SHARP : List String :=
  ["C", "C#", "D", "D#", "E", "F"] ++ ["F#", "G", "G#", "A", "A#", "B"]

/-- NOTE_SEQUENCE_FLAT from app.py. -/
def NOTE_SEQUENCE_FLAT : List String :=
  ["C", "Db", "D", "Eb", "E", "F", "Gb", "G", "Ab", "A", "Bb", "B"]

/-- CHORD_TOKEN_RE from app.py: group one is a root letter A-G optionally
followed by a single sharp or flat mark, group two is the rest.  Returns
(root, suffix) on match, none when the text does not start with a root
letter.  The optional accidental is matched greedily as in the regex. -/
def chordTokenMatch : List Char → Option (List Char × List Char)
  | [] => none
  | c :: rest =>
    if 'A' ≤ c && c ≤ 'G' then
      match rest with
      | [] => some ([c], [])
      | d :: rest2 => if d = '#' || d = 'b' then some ([c, d], rest2) else some ([c], rest)
    else none

/-- Python list.index wrapped in Option: the exception branch of
seq.index(root) in transpose_chord is the none case. -/
def seqFind (x : String) : List String → Option Nat
  | [] => none
  | y :: ys => if y = x then some 0 else (seqFind x ys).map (fun i => i + 1)

/-- The working-sequence test of transpose_chord: a literal letter b in the
root and the root not being the bare note B selects the flat sequence. -/
def rootSeqIsFlat (root : List Char) : Bool :=
  root.contains 'b' && !(root == ['B'])

/-- Root lookup of transpose_chord: try the sequence implied by the spelling,
then fall back to the other sequence (the try/except chain of app.py lines
111-120). -/
def rootIdx (root : List Char) : Option Nat :=
  match seqFind (String.mk root)
      (if rootSeqIsFlat root then NOTE_SEQUENCE_FLAT else NOTE_SEQUENCE_SHARP) with
  | some i => some i
  | none =>
    seqFind (String.mk root)
      (if rootSeqIsFlat root then NOTE_SEQUENCE_SHARP else NOTE_SEQUENCE_FLAT)

/-- The output table of transpose_chord: flat spellings when prefer equals
"flat", sharp spellings otherwise. -/
def prefSeq (prefer : String) : List String :=
  if prefer = "flat" then NOTE_SEQUENCE_FLAT else NOTE_SEQUENCE_SHARP

/-! ### Transposition engine (app.py lines 100-137) -/

/-- transpose_chord from app.py on character lists: strip the chord, split
root from suffix with CHORD_TOKEN_RE, look the root up in the note tables,
move it by the given number of semitones modulo 12 and respell it per the
preference, keeping the suffix.  Unparsable or unknown roots return the
chord unchanged. -/
def transposeChordL (chord : List Char) (semitones : Int) (prefer : String) : List Char :=
  match chordTokenMatch (pyStrip chord) with
  | none => chord
  | some pr =>
    match rootIdx pr.1 with
    | none => chord
    | some idx =>
      ((prefSeq prefer).getD (((idx : Int) + semitones) % 12).toNat "").data ++ pr.2

/-- transpose_chord from app.py. -/
def transpose_chord (chord : String) (semitones : Int) (prefer : String) : String :=
  String.mk (transposeChordL chord.data semitones prefer)

/-- Body of the _repl closure of transpose_line: slash chords are split at
the first slash and both halves are transposed independently. -/
def replInside (inside : List Char) (semitones : Int) (prefer : String) : List Char :=
  match splitFirst '/' inside with
  | some pr => transposeChordL pr.1 semitones prefer ++ '/' :: transposeChordL pr.2 semitones prefer
  | none => transposeChordL inside semitones prefer

/-- CHORD_RE.sub of transpose_line as a left-to-right scanner.  The first
state scans outside brackets; the second state carries the reversed
characters collected since an opening bracket.  A bracket pair with a
nonempty inside is a match of the regex and is replaced; an immediately
closed pair or an unclosed bracket is emitted verbatim, as re.sub does. -/
def chordSubAux (semitones : Int) (prefer : String) :
    Option (List Char) → List Char → List Char
  | none, [] => []
  | some pend, [] => '[' :: pend.reverse
  | none, c :: rest =>
    if c = '[' then chordSubAux semitones prefer (some []) rest
    else c :: chordSubAux semitones prefer none rest
  | some pend, c :: rest =>
    if c = ']' then
      if pend.isEmpty then '[' :: ']' :: chordSubAux semitones prefer none rest
      else '[' :: replInside pend.reverse semitones prefer ++ ']' :: chordSubAux semitones prefer none rest
    else chordSubAux semitones prefer (some (c :: pend)) rest

/-- transpose_line from app.py. -/
def transpose_line (line : String) (semitones : Int) (prefer : String) : String :=
  String.mk (chordSubAux semitones prefer none line.data)

/-! ### Side conditions used by the theorems -/

/-- A chord suffix that does not itself begin with an accidental mark.  When
the suffix starts with a sharp or flat mark, re-parsing the transposed chord
can absorb that mark into a re-spelled natural root. -/
def suffixOk : List Char → Bool
  | [] => true
  | c :: _ => !(c = '#' || c = 'b')

/-- The exact shapes CHORD_TOKEN_RE accepts as a root: a letter A-G alone or
followed by one sharp or flat mark. -/
def rootFormat : List Char → Bool
  | [x] => 'A' ≤ x && x ≤ 'G'
  | [x, m] => ('A' ≤ x && x ≤ 'G') && (m = '#' || m = 'b')
  | _ => false

/-- A chord string is good when, if it parses to a root found in the note
tables, its suffix does not begin with an accidental mark. -/
def goodChord (c : List Char) : Bool :=
  match chordTokenMatch (pyStrip c) with
  | none => true
  | some pr =>
    match rootIdx pr.1 with
    | none => true
    | some _ => suffixOk pr.2

/-- A bracketed token is good when each of its slash components is a good
chord string. -/
def goodInside (inside : List Char) : Bool :=
  match splitFirst '/' inside with
  | none => goodChord inside
  | some pr => goodChord pr.1 && goodChord pr.2

/-- Every bracketed chord token of the line is good, traversed with the same
scanner states as chordSubAux. -/
def lineOk : Option (List Char) → List Char → Bool
  | _, [] => true
  | none, c :: rest =>
    if c = '[' then lineOk (some []) rest else lineOk none rest
  | some pend, c :: rest =>
    if c = ']' then (pend.isEmpty || goodInside pend.reverse) && lineOk none rest
    else lineOk (some (c :: pend)) rest

/-- Every bracketed chord token of the line is left unchanged by zero-offset
transposition, traversed with the same scanner states as chordSubAux. -/
def lineFixedAtZero (prefer : String) : Option (List Char) → List Char → Bool
  | _, [] => true
  | none, c :: rest =>
    if c = '[' then lineFixedAtZero prefer (some []) rest
    else lineFixedAtZero prefer none rest
  | some pend, c :: rest =>
    if c = ']' then
      (pend.isEmpty || (replInside pend.reverse 0 prefer == pend.reverse))
        && lineFixedAtZero prefer none rest
    else lineFixedAtZero prefer (some (c :: pend)) rest

/-- The pitch class denoted by a chord string: parse its root and look it up
in the note tables exactly as transpose_chord does. -/
def pitchClassOfL (l : List Char) : Option Nat :=
  match chordTokenMatch (pyStrip l) with
  | none => none
  | some pr => rootIdx pr.1

/-- pitchClassOfL on strings. -/
def pitchClassOf (s : String) : Option Nat := pitchClassOfL s.data

/-- A valid chord root in the sense of the claims: the whole string is a
letter A-G optionally followed by a single sharp or flat mark, which is the
same as CHORD_TOKEN_RE matching it with an empty suffix. -/
def validRoot (r : String) : Prop :=
  chordTokenMatch r.data = some (r.data, [])

/-! ### Renderer B: parse_chopro_line (webchord.py lines 66-135) -/

/-- The space to nbsp replacement of parse_chopro_line (webchord.py line
79): every space character becomes the six characters of the nbsp entity
before the line is split at chord boundaries. -/
def replaceSpaces : List Char → List Char
  | [] => []
  | c :: rest =>
    if c = ' ' then '&' :: 'n' :: 'b' :: 's' :: 'p' :: ';' :: replaceSpaces rest
    else c :: replaceSpaces rest

/-- The chord and lyric collecting loop of parse_chopro_line: find the next
opening bracket and the first closing bracket after it, collect the text
before as a lyric fragment and the text between as a chord, and continue
after the closing bracket; when either bracket is missing the remaining
text becomes the final lyric fragment.  The fuel argument only bounds the
number of iterations; the line length is always enough because every
iteration consumes at least two characters. -/
def wcSplitAux : Nat → List Char → List (List Char) × List (List Char)
  | 0, rest => ([], [rest])
  | fuel + 1, rest =>
    match splitFirst '[' rest with
    | none => ([], [rest])
    | some pr1 =>
      match splitFirst ']' pr1.2 with
      | none => ([], [rest])
      | some pr2 =>
        let res := wcSplitAux fuel pr2.2
        (pr2.1 :: res.1, pr1.1 :: res.2)

/-- The chords and lyrics cell lists of parse_chopro_line: the replacement,
the collecting loop with the initial empty chord cell, and the removal of
the two leading empty cells when the line begins with a chord. -/
def parse_chopro_cellsList (line : List Char) : List (List Char) × List (List Char) :=
  let l := replaceSpaces line
  let res := wcSplitAux l.length l
  let chords := [] :: res.1
  let lyrics := res.2
  if lyrics.head? = some [] then (chords.drop 1, lyrics.drop 1) else (chords, lyrics)

/-- parse_chopro_cellsList on strings. -/
def parse_chopro_cells (line : String) : List String × List String :=
  let pr := parse_chopro_cellsList line.data
  (pr.1.map String.mk, pr.2.map String.mk)

/-- The lyric style classes of parse_chopro_line, indexed by the mode. -/
def l_classes : List String := ["lyrics", "lyrics_chorus", "lyrics_tab", "lyrics_chorus_tab"]

/-- The chord style classes of parse_chopro_line, indexed by the mode. -/
def c_classes : List String := ["chords", "chords_chorus", "chords_tab", "chords_chorus_tab"]

/-- parse_chopro_line from webchord.py: a line whose cells are all empty
emits a line break, a line with a single lyric cell and no chord emits a
lyric block, and any other line emits a two-row table with one chord cell
and one lyric cell per fragment. -/
def parse_chopro_line (line : String) (mode : Nat) : String :=
  let pr := parse_chopro_cellsList line.data
  let chords := pr.1
  let lyrics := pr.2
  if lyrics.isEmpty || lyrics.all (fun part => part.isEmpty) then "<BR>\n"
  else if lyrics.length = 1 && (chords.isEmpty || (chords.headD []).isEmpty) then
    "<DIV class=\"" ++ l_classes.getD mode "" ++ "\">" ++ String.mk (lyrics.headD [])
      ++ "</DIV>\n"
  else
    "<TABLE cellpadding=\"0\" cellspacing=\"0\"><TR>"
      ++ String.join (chords.map (fun ch =>
          "<TD class=\"" ++ c_classes.getD mode "" ++ "\">" ++ String.mk ch ++ "</TD>"))
      ++ "</TR><TR>"
      ++ String.join (lyrics.map (fun ly =>
          "<TD class=\"" ++ l_classes.getD mode "" ++ "\">" ++ String.mk ly ++ "</TD>"))
      ++ "</TR></TABLE>\n"

/-! ### Renderer B: section mode of chopro2html (webchord.py lines 182-231) -/

/-- The five possible effects of one line on the section mode bitmask. -/
inductive ModeAct
  | setChorus
  | clearChorus
  | setTab
  | clearTab
  | keep
deriving DecidableEq

/-- Classify one line of chopro2html by its effect on the mode bitmask,
following the exact guard chain of the loop: comment lines, content lines
and all directives other than the four chorus and tab markers leave the
mode unchanged. -/
def modeAct (line : List Char) : ModeAct :=
  if startsWithL ['#'] line then ModeAct.keep
  else if startsWithL ['\x7b'] line && (line.getLast? == some '\x7d') then
    let lower := pyLower ((line.drop 1).dropLast)
    if startsWithL "title:".data lower || startsWithL "t:".data lower then ModeAct.keep
    else if startsWithL "artist:".data lower || startsWithL "a:".data lower then ModeAct.keep
    else if startsWithL "subtitle:".data lower || startsWithL "st:".data lower then ModeAct.keep
    else if startsWithL "start_of_chorus".data lower
        || startsWithL "soc".data lower then ModeAct.setChorus
    else if startsWithL "end_of_chorus".data lower
        || startsWithL "eoc".data lower then ModeAct.clearChorus
    else if startsWithL "comment_italic:".data lower
        || startsWithL "ci:".data lower then ModeAct.keep
    else if startsWithL "comment_box:".data lower
        || startsWithL "cb:".data lower then ModeAct.keep
    else if startsWithL "comment:".data lower || startsWithL "c:".data lower then ModeAct.keep
    else if startsWithL "start_of_tab".data lower
        || startsWithL "sot".data lower then ModeAct.setTab
    else if startsWithL "end_of_tab".data lower
        || startsWithL "eot".data lower then ModeAct.clearTab
    else ModeAct.keep
  else ModeAct.keep

/-- The mode update of one chopro2html loop iteration.  Python applies the
bit operations mode OR 1, mode AND NOT 1, mode OR 2 and mode AND NOT 2 on
an unbounded integer; on naturals clearing bit zero subtracts the parity
and clearing bit one subtracts two exactly when bit one is set. -/
def modeStep (mode : Nat) (line : List Char) : Nat :=
  match modeAct line with
  | ModeAct.setChorus => mode ||| 1
  | ModeAct.clearChorus => mode - mode % 2
  | ModeAct.setTab => mode ||| 2
  | ModeAct.clearTab => if mode.testBit 1 then mode - 2 else mode
  | ModeAct.keep => mode

/-- The mode after processing a list of lines, starting from zero as in
chopro2html. -/
def chopro2html_mode (lines : List (List Char)) : Nat :=
  lines.foldl modeStep 0

/-! ### Transpose query parameter (app.py lines 237 and 282) -/

/-- Digit-string accumulation of the Python int builtin. -/
def pyIntDigitsAux : Nat → List Char → Option Nat
  | acc, [] => some acc
  | acc, c :: rest =>
    if '0' ≤ c && c ≤ '9' then pyIntDigitsAux (acc * 10 + (c.toNat - '0'.toNat)) rest
    else none

/-- A nonempty run of decimal digits, or none. -/
def pyIntDigits : List Char → Option Nat
  | [] => none
  | l => pyIntDigitsAux 0 l

/-- The Python int builtin applied to a string: surrounding whitespace is
tolerated, one explicit plus or minus sign is accepted, and the rest must
be a nonempty run of decimal digits; any other input raises ValueError,
modelled as none. -/
def pyIntParse (s : String) : Option Int :=
  let t := pyStrip s.data
  match t with
  | '+' :: rest => (pyIntDigits rest).map (fun k => (k : Int))
  | '-' :: rest => (pyIntDigits rest).map (fun k => -(k : Int))
  | _ => (pyIntDigits t).map (fun k => (k : Int))

/-- The transpose handling of the render_song and index routes:
request.args.get returns the default integer zero when the parameter is
missing, and the string value otherwise; int of the result yields zero for
the default and parses the string otherwise, raising (none) on a value
that is not an integer literal. -/
def render_song_transpose (arg : Option String) : Option Int :=
  match arg with
  | none => some 0
  | some s => pyIntParse s

/-! ### ChordPro normalization, prepare_chopro (app.py lines 141-218) -/

/-- Python str.splitlines for newline-separated text: split at every
newline and drop the final empty piece produced by a trailing newline, so
that empty text yields no lines at all. -/
def pySplitlines (l : List Char) : List (List Char) :=
  let parts := l.splitOn '\n'
  if parts.getLast? = some [] then parts.dropLast else parts

/-- The list comprehension of prepare_chopro collecting the indices of the
lines with nonempty strip, written recursively: a blank head shifts the
indices of the tail by one and a non-blank head contributes index zero. -/
def nonEmptyIdx : List (List Char) → List Nat
  | [] => []
  | l :: ls =>
    if (pyStrip l).isEmpty then (nonEmptyIdx ls).map (fun i => i + 1)
    else 0 :: (nonEmptyIdx ls).map (fun i => i + 1)

/-- The has_directive_at_top loop of prepare_chopro: one of the first three
non-blank lines starts, after lstrip, with an opening brace and contains a
closing brace. -/
def hasDirectiveAtTop (lines : List (List Char)) : Bool :=
  ((nonEmptyIdx lines).take 3).any (fun i =>
    startsWithL ['\x7b'] (stripLead (lines.getD i []))
      && (stripLead (lines.getD i [])).contains '\x7d')

/-- The loose key pattern of prepare_chopro: optional whitespace, the word
key in any case, optional whitespace, a colon, and at least one further
character; the result is the raw text after the colon. -/
def keyLineTail (l : List Char) : Option (List Char) :=
  let l1 := l.dropWhile pyIsSpace
  if pyLower (l1.take 3) = "key".data then
    match (l1.drop 3).dropWhile pyIsSpace with
    | ':' :: tail => if tail.isEmpty then none else some tail
    | _ => none
  else none

/-- Group one of the key pattern: the greedy whitespace run after the colon
backtracks just enough to leave at least one character. -/
def keyGroup1 (tail : List Char) : List Char :=
  let d := tail.dropWhile pyIsSpace
  if d.isEmpty then tail.drop (tail.length - 1) else d

/-- normalize_key_value from app.py: strip the value and remove one pair of
surrounding square brackets when present, stripping again. -/
def normalize_key_value (val : List Char) : List Char :=
  let v := pyStrip val
  if 2 ≤ v.length && (v.head? == some '[') && (v.getLast? == some ']') then
    pyStrip ((v.drop 1).dropLast)
  else v

/-- The inferred title of prepare_chopro: the stripped first non-blank
line. -/
def inferredTitle (lines : List (List Char)) : Option (List Char) :=
  match nonEmptyIdx lines with
  | [] => none
  | i :: _ => some (pyStrip (lines.getD i []))

/-- The inferred artist of prepare_chopro: the stripped second non-blank
line. -/
def inferredArtist (lines : List (List Char)) : Option (List Char) :=
  match nonEmptyIdx lines with
  | _ :: j :: _ => some (pyStrip (lines.getD j []))
  | _ => none

/-- The index of the first loose key line among the third to eighth
non-blank lines, as in the key loop of prepare_chopro. -/
def keyIdx (lines : List (List Char)) : Option Nat :=
  (((nonEmptyIdx lines).drop 2).take 6).find? (fun i =>
    (keyLineTail (lines.getD i [])).isSome)

/-- The inferred key of prepare_chopro: the normalized first group of the
key pattern at the found index. -/
def inferredKey (lines : List (List Char)) : Option (List Char) :=
  (keyIdx lines).bind (fun i =>
    (keyLineTail (lines.getD i [])).map (fun t => normalize_key_value (keyGroup1 t)))

/-- The consumed index set of prepare_chopro: the title index, the artist
index and the key index, as far as they exist. -/
def consumedIdx (lines : List (List Char)) : List Nat :=
  (match nonEmptyIdx lines with
   | [] => []
   | [i] => [i]
   | i :: j :: _ => [i, j])
  ++ (match keyIdx lines with
      | some k => [k]
      | none => [])

/-- The body rebuilding loop of prepare_chopro: walk the enumerated lines
and skip the consumed indices. -/
def dropConsumed (consumed : List Nat) : Nat → List (List Char) → List (List Char)
  | _, [] => []
  | idx, l :: ls =>
    if consumed.contains idx then dropConsumed consumed (idx + 1) ls
    else l :: dropConsumed consumed (idx + 1) ls

/-- A synthetic ChordPro directive line, as the f-strings of prepare_chopro
build them. -/
def mkDirective (name : String) (v : List Char) : List Char :=
  '\x7b' :: name.data ++ ':' :: ' ' :: v ++ ['\x7d']

/-- The conditional append of a synthetic directive: Python appends only a
truthy (nonempty) value. -/
def dirList (name : String) : Option (List Char) → List (List Char)
  | none => []
  | some v => if v.isEmpty then [] else [mkDirective name v]

/-- The new line list built by prepare_chopro when no directive is at the
top: synthetic title, artist and key directives followed by the lines that
were not consumed. -/
def buildNormalized (lines : List (List Char)) : List (List Char) :=
  dirList "title" (inferredTitle lines)
    ++ dirList "artist" (inferredArtist lines)
    ++ dirList "key" (inferredKey lines)
    ++ dropConsumed (consumedIdx lines) 0 lines

/-- The normalization of prepare_chopro at the level of line lists,
including its three early-return guards. -/
def prepare_chopro_lines (lines : List (List Char)) : List (List Char) :=
  if lines.isEmpty then lines
  else if (nonEmptyIdx lines).isEmpty then lines
  else if hasDirectiveAtTop lines then lines
  else buildNormalized lines

/-- The text-normalization component of prepare_chopro: the early returns
keep the text byte-identical, and the rebuilt document joins the new lines
with newlines.  The second return value of prepare_chopro, the extracted
base key, is outside the claims about normalization. -/
def prepare_chopro_text (text : String) : String :=
  let lines := pySplitlines text.data
  if lines.isEmpty then text
  else if (nonEmptyIdx lines).isEmpty then text
  else if hasDirectiveAtTop lines then text
  else String.intercalate "\n" ((buildNormalized lines).map String.mk)

/-! ### The normalization pass as the specification describes it -/

/-- A physical line is blank when it strips to nothing. -/
def isBlankLine (l : List Char) : Bool := (pyStrip l).isEmpty

/-- Written from the specification: promote the first non-blank line,
returning its stripped text and the document with that line removed. -/
def extractNonBlank : List (List Char) → Option (List Char × List (List Char))
  | [] => none
  | l :: ls =>
    if isBlankLine l then (extractNonBlank ls).map (fun pr => (pr.1, l :: pr.2))
    else some (pyStrip l, ls)

/-- Written from the specification: search the next several (count)
non-blank lines for a loose key line; when found, return the normalized
key value and the document with that line removed. -/
def specFindKey : Nat → List (List Char) → Option (List Char × List (List Char))
  | _, [] => none
  | count, l :: ls =>
    if isBlankLine l then (specFindKey count ls).map (fun pr => (pr.1, l :: pr.2))
    else if count = 0 then none
    else
      match keyLineTail l with
      | some t => some (normalize_key_value (keyGroup1 t), ls)
      | none => (specFindKey (count - 1) ls).map (fun pr => (pr.1, l :: pr.2))

/-- The heuristic normalization pass as the specification words it: the
first non-blank line becomes a title directive and the second an artist
directive, the first loose key line among the next six non-blank lines
becomes a key directive, each promoted line is removed from the body, and
the synthetic directives are inserted at the top. -/
def spec_normalize (lines : List (List Char)) : List (List Char) :=
  match extractNonBlank lines with
  | none => lines
  | some pr1 =>
    match extractNonBlank pr1.2 with
    | none => dirList "title" (some pr1.1) ++ pr1.2
    | some pr2 =>
      match specFindKey 6 pr2.2 with
      | none =>
        dirList "title" (some pr1.1) ++ dirList "artist" (some pr2.1) ++ pr2.2
      | some pr3 =>
        dirList "title" (some pr1.1) ++ dirList "artist" (some pr2.1)
          ++ dirList "key" (some pr3.1) ++ pr3.2

/-! ## Infrastructure lemmas -/

/-- The split decomposes the list at an occurrence of the target, and the
part before the split contains no occurrence of the target. -/
theorem splitFirst_eq_some {t : Char} :
    ∀ {l a b : List Char}, splitFirst t l = some (a, b) → l = a ++ t :: b ∧ t ∉ a := by
  intro l
  induction l with
  | nil => intro a b h; simp [splitFirst] at h
  | cons c rest ih =>
    intro a b h
    simp only [splitFirst] at h
    by_cases hc : c = t
    · rw [if_pos hc] at h
      have ha : ([] : List Char) = a ∧ rest = b := by
        have := Option.some.inj h
        exact ⟨congrArg Prod.fst this, congrArg Prod.snd this⟩
      obtain ⟨ha, hb⟩ := ha
      subst ha; subst hb; subst hc
      exact ⟨rfl, by simp⟩
    · rw [if_neg hc, Option.map_eq_some'] at h
      obtain ⟨pr, hpr, heq⟩ := h
      have ha : c :: pr.1 = a := congrArg Prod.fst heq
      have hb : pr.2 = b := congrArg Prod.snd heq
      obtain ⟨hl, hna⟩ := ih hpr
      subst ha; subst hb
      refine ⟨by rw [hl]; rfl, ?_⟩
      intro hmem
      rcases List.mem_cons.mp hmem with h1 | h2
      · exact hc h1.symm
      · exact hna h2

/-- splitFirst finds the first occurrence. -/
theorem splitFirst_append {t : Char} :
    ∀ {a : List Char}, t ∉ a → ∀ b, splitFirst t (a ++ t :: b) = some (a, b) := by
  intro a
  induction a with
  | nil => intro _ b; simp [splitFirst]
  | cons c rest ih =>
    intro ha b
    have hc : c ≠ t := fun h => ha (h ▸ List.mem_cons_self c rest)
    have ha2 : t ∉ rest := fun h => ha (List.mem_cons_of_mem c h)
    show splitFirst t (c :: (rest ++ t :: b)) = some (c :: rest, b)
    simp only [splitFirst, if_neg hc, ih ha2 b, Option.map_some']

/-- splitFirst fails exactly on lists without the target. -/
theorem splitFirst_eq_none {t : Char} :
    ∀ {l : List Char}, splitFirst t l = none → t ∉ l := by
  intro l
  induction l with
  | nil => intro _; simp
  | cons c rest ih =>
    intro h
    by_cases hc : c = t
    · simp [splitFirst, hc] at h
    · simp [splitFirst, hc] at h
      intro hmem
      rcases List.mem_cons.mp hmem with h1 | h2
      · exact hc h1.symm
      · exact (ih (by simp [h])) h2

/-- A member of the split target list. -/
theorem splitFirst_isSome_of_mem {t : Char} :
    ∀ {l : List Char}, t ∈ l → (splitFirst t l).isSome = true := by
  intro l hm
  cases h : splitFirst t l with
  | none => exact absurd hm (splitFirst_eq_none h)
  | some pr => rfl

/-- No leading whitespace, expressed on the optional head. -/
def noLeadSp (l : List Char) : Prop :=
  ∀ z, l.head? = some z → pyIsSpace z = false

/-- No trailing whitespace, expressed on the optional last element. -/
def noTrailSp (l : List Char) : Prop :=
  ∀ z, l.getLast? = some z → pyIsSpace z = false

theorem mem_of_getLast_eq {l : List Char} {z : Char} (h : l.getLast? = some z) : z ∈ l := by
  rw [← List.head?_reverse] at h
  have hz : z ∈ l.reverse := by
    cases hr : l.reverse with
    | nil => rw [hr] at h; simp at h
    | cons a t =>
      rw [hr] at h
      have : a = z := by simpa using h
      rw [hr, this] at hr ⊢
      exact List.mem_cons_self z t
  exact List.mem_reverse.mp hz

theorem dropWhile_head_not {p : Char → Bool} :
    ∀ {l : List Char} {z : Char}, (l.dropWhile p).head? = some z → p z = false := by
  intro l
  induction l with
  | nil => intro z h; simp [List.dropWhile] at h
  | cons a t ih =>
    intro z h
    rw [List.dropWhile_cons] at h
    by_cases hp : p a = true
    · rw [if_pos hp] at h; exact ih h
    · rw [if_neg hp] at h
      have : a = z := by simpa using h
      subst this
      exact Bool.not_eq_true _ ▸ hp

theorem dropWhile_eq_self_of_head {p : Char → Bool} {l : List Char}
    (h : ∀ z, l.head? = some z → p z = false) : l.dropWhile p = l := by
  cases l with
  | nil => rfl
  | cons a t =>
    rw [List.dropWhile_cons, if_neg]
    rw [h a rfl]
    simp

/-- A list with no surrounding whitespace is fixed by strip. -/
theorem pyStrip_eq_self {l : List Char} (h1 : noLeadSp l) (h2 : noTrailSp l) :
    pyStrip l = l := by
  unfold pyStrip
  rw [dropWhile_eq_self_of_head h1]
  rw [dropWhile_eq_self_of_head (by intro z hz; rw [List.head?_reverse] at hz; exact h2 z hz)]
  exact List.reverse_reverse l

/-- The stripped list has no trailing whitespace. -/
theorem noTrailSp_pyStrip (l : List Char) : noTrailSp (pyStrip l) := by
  intro z hz
  unfold pyStrip at hz
  rw [List.getLast?_reverse] at hz
  exact dropWhile_head_not hz

/-- Members of the stripped list are members of the list. -/
theorem mem_pyStrip {x : Char} {l : List Char} (h : x ∈ pyStrip l) : x ∈ l := by
  unfold pyStrip at h
  rw [List.mem_reverse] at h
  have h2 := (List.dropWhile_sublist pyIsSpace).mem h
  rw [List.mem_reverse] at h2
  exact (List.dropWhile_sublist pyIsSpace).mem h2

/-- Strip is the identity on a root followed by a suffix without trailing
whitespace, provided the root has no whitespace characters. -/
theorem pyStrip_root_append {r : List Char} (hr0 : r ≠ [])
    (hr : ∀ z ∈ r, pyIsSpace z = false) {s : List Char} (hs : noTrailSp s) :
    pyStrip (r ++ s) = r ++ s := by
  apply pyStrip_eq_self
  · intro z hz
    rw [List.head?_append_of_ne_nil r hr0] at hz
    exact hr z (List.mem_of_mem_head? hz)
  · intro z hz
    cases hsnil : s with
    | nil =>
      rw [hsnil, List.append_nil] at hz
      exact hr z (mem_of_getLast_eq hz)
    | cons a t =>
      rw [List.getLast?_append_of_ne_nil r (by rw [hsnil]; simp)] at hz
      exact hs z hz

/-- CHORD_TOKEN_RE decomposes its input into root and suffix. -/
theorem ctm_decomp : ∀ {l r s : List Char},
    chordTokenMatch l = some (r, s) → l = r ++ s := by
  intro l r s h
  cases l with
  | nil => simp [chordTokenMatch] at h
  | cons c rest =>
    by_cases hc : ('A' ≤ c && c ≤ 'G') = true
    · cases rest with
      | nil =>
        simp [chordTokenMatch, hc] at h
        obtain ⟨hr, hs⟩ := h
        subst_vars
        rfl
      | cons d rest2 =>
        by_cases hd : (d = '#' || d = 'b') = true
        · simp [chordTokenMatch, hc, hd] at h
          obtain ⟨hr, hs⟩ := h
          subst_vars
          rfl
        · simp [chordTokenMatch, hc, hd] at h
          obtain ⟨hr, hs⟩ := h
          subst_vars
          rfl
    · simp [chordTokenMatch, hc] at h

/-- CHORD_TOKEN_RE on a well-formed root followed by a suffix not beginning
with an accidental mark parses back into exactly that root and suffix. -/
theorem ctm_append {r : List Char} (hr : rootFormat r = true) {s : List Char}
    (hs : suffixOk s = true) : chordTokenMatch (r ++ s) = some (r, s) := by
  match r, hr with
  | [x], hr =>
    have hx : ('A' ≤ x && x ≤ 'G') = true := by simpa [rootFormat] using hr
    show chordTokenMatch (x :: s) = some ([x], s)
    cases s with
    | nil => simp [chordTokenMatch, hx]
    | cons d t =>
      have hd : (d = '#' || d = 'b') = false := by
        simpa [suffixOk] using hs
      simp [chordTokenMatch, hx, hd]
  | [x, m], hr =>
    have hx : ('A' ≤ x && x ≤ 'G') = true := by
      simp [rootFormat] at hr
      simp [hr.1.1, hr.1.2]
    have hm : (m = '#' || m = 'b') = true := by
      simp [rootFormat] at hr
      rcases hr.2 with h | h <;> simp [h]
    show chordTokenMatch (x :: m :: s) = some ([x, m], s)
    simp [chordTokenMatch, hx, hm]

/-- Python list.index returns an index inside the list. -/
theorem seqFind_lt {x : String} :
    ∀ {l : List String} {i : Nat}, seqFind x l = some i → i < l.length := by
  intro l
  induction l with
  | nil => intro i h; simp [seqFind] at h
  | cons y ys ih =>
    intro i h
    simp only [seqFind] at h
    by_cases hy : y = x
    · rw [if_pos hy] at h
      have : 0 = i := Option.some.inj h
      rw [← this]; simp
    · rw [if_neg hy, Option.map_eq_some'] at h
      obtain ⟨j, hj, hji⟩ := h
      rw [← hji]
      have := ih hj
      simpa using Nat.succ_lt_succ this

/-- Spellings produced from the preference table parse back to themselves
with the suffix intact, and their table position is exactly the index they
were produced from. -/
theorem prefSeq_reparse (p : String) (q : Nat) (hq : q < 12) {s : List Char}
    (hs : suffixOk s = true) (ht : noTrailSp s) :
    chordTokenMatch (pyStrip (((prefSeq p).getD q "").data ++ s))
        = some (((prefSeq p).getD q "").data, s)
      ∧ rootIdx ((prefSeq p).getD q "").data = some q := by
  by_cases hp : p = "flat" <;>
    simp only [prefSeq, hp, if_pos, if_neg, if_true, if_false, reduceIte] <;>
    interval_cases q <;>
    exact ⟨by
      rw [pyStrip_root_append (by decide) (by decide) ht]
      exact ctm_append (by decide) hs, by decide⟩

/-- A root index produced by the table lookup is below 12. -/
theorem rootIdx_lt {r : List Char} {i : Nat} (h : rootIdx r = some i) : i < 12 := by
  unfold rootIdx at h
  cases h1 : seqFind (String.mk r)
      (if rootSeqIsFlat r then NOTE_SEQUENCE_FLAT else NOTE_SEQUENCE_SHARP) with
  | some j =>
    rw [h1] at h
    have hj := Option.some.inj h
    subst hj
    have hlt := seqFind_lt h1
    by_cases hf : rootSeqIsFlat r = true
    · rw [if_pos hf] at hlt; exact hlt
    · rw [if_neg hf] at hlt; exact hlt
  | none =>
    rw [h1] at h
    have hlt := seqFind_lt h
    by_cases hf : rootSeqIsFlat r = true
    · rw [if_pos hf] at hlt; exact hlt
    · rw [if_neg hf] at hlt; exact hlt

/-- Unparsable chords are returned unchanged for any offset. -/
theorem tc_unchanged_of_nomatch {c : List Char}
    (hm : chordTokenMatch (pyStrip c) = none) (m : Int) (p : String) :
    transposeChordL c m p = c := by
  unfold transposeChordL
  rw [hm]

/-- Chords whose root is not in the tables are returned unchanged. -/
theorem tc_unchanged_of_nolookup {c : List Char} {pr : List Char × List Char}
    (hm : chordTokenMatch (pyStrip c) = some pr) (hr : rootIdx pr.1 = none)
    (m : Int) (p : String) : transposeChordL c m p = c := by
  unfold transposeChordL
  rw [hm]
  dsimp only
  rw [hr]

/-- The successful branch of transpose_chord. -/
theorem tc_success {c : List Char} {root suffix : List Char} {idx : Nat}
    (hm : chordTokenMatch (pyStrip c) = some (root, suffix)) (hr : rootIdx root = some idx)
    (m : Int) (p : String) :
    transposeChordL c m p
      = ((prefSeq p).getD (((idx : Int) + m) % 12).toNat "").data ++ suffix := by
  unfold transposeChordL
  rw [hm]
  dsimp only
  rw [hr]

/-- The suffix of a parsed stripped chord has no trailing whitespace. -/
theorem suffix_noTrailSp {c root suffix : List Char}
    (hm : chordTokenMatch (pyStrip c) = some (root, suffix)) : noTrailSp suffix := by
  intro z hz
  have hsne : suffix ≠ [] := by
    intro he; rw [he] at hz; simp at hz
  have hdec := ctm_decomp hm
  have hlast : (pyStrip c).getLast? = some z := by
    rw [hdec, List.getLast?_append_of_ne_nil root hsne]
    exact hz
  exact noTrailSp_pyStrip c z hlast

/-- transpose_chord round trip at the chord level: transposing by n and then
by minus n agrees with transposing by zero for good chord strings. -/
theorem tc_roundtrip (c : List Char) (n : Int) (p : String) (h : goodChord c = true) :
    transposeChordL (transposeChordL c n p) (-n) p = transposeChordL c 0 p := by
  cases hm : chordTokenMatch (pyStrip c) with
  | none =>
    rw [tc_unchanged_of_nomatch hm n p, tc_unchanged_of_nomatch hm (-n) p,
        tc_unchanged_of_nomatch hm 0 p]
  | some pr =>
    obtain ⟨root, suffix⟩ := pr
    cases hr : rootIdx root with
    | none =>
      rw [tc_unchanged_of_nolookup hm hr n p, tc_unchanged_of_nolookup hm hr (-n) p,
          tc_unchanged_of_nolookup hm hr 0 p]
    | some idx =>
      have hso : suffixOk suffix = true := by
        simp only [goodChord, hm, hr] at h
        exact h
      have hts : noTrailSp suffix := suffix_noTrailSp hm
      have hidx : idx < 12 := rootIdx_lt hr
      have hq : (((idx : Int) + n) % 12).toNat < 12 := by omega
      obtain ⟨hc2, hr2⟩ := prefSeq_reparse p (((idx : Int) + n) % 12).toNat hq hso hts
      rw [tc_success hm hr n p]
      rw [tc_success hc2 hr2 (-n) p]
      rw [tc_success hm hr 0 p]
      have harith : ((((((idx : Int) + n) % 12).toNat : Int) + -n) % 12).toNat
          = (((idx : Int) + 0) % 12).toNat := by omega
      rw [harith]

/-- Case analysis on the result of transpose_chord. -/
theorem tc_shape (c : List Char) (n : Int) (p : String) :
    transposeChordL c n p = c
    ∨ ∃ root suffix idx, chordTokenMatch (pyStrip c) = some (root, suffix)
        ∧ rootIdx root = some idx
        ∧ transposeChordL c n p
            = ((prefSeq p).getD (((idx : Int) + n) % 12).toNat "").data ++ suffix := by
  cases hm : chordTokenMatch (pyStrip c) with
  | none => exact Or.inl (tc_unchanged_of_nomatch hm n p)
  | some pr =>
    obtain ⟨root, suffix⟩ := pr
    cases hr : rootIdx root with
    | none => exact Or.inl (tc_unchanged_of_nolookup hm hr n p)
    | some idx => exact Or.inr ⟨root, suffix, idx, rfl, hr, tc_success hm hr n p⟩

/-- The note-table spellings are nonempty and contain neither a closing
bracket nor a slash. -/
theorem entry_chars (p : String) (q : Nat) (hq : q < 12) :
    ((prefSeq p).getD q "").data ≠ []
    ∧ ']' ∉ ((prefSeq p).getD q "").data
    ∧ '/' ∉ ((prefSeq p).getD q "").data := by
  by_cases hp : p = "flat" <;> simp only [prefSeq, hp, reduceIte] <;>
    interval_cases q <;> exact ⟨by decide, by decide, by decide⟩

/-- Characters of the parsed suffix occur in the original chord string. -/
theorem suffix_mem {c root suffix : List Char}
    (hm : chordTokenMatch (pyStrip c) = some (root, suffix)) {ch : Char}
    (hch : ch ∈ suffix) : ch ∈ c := by
  apply mem_pyStrip
  rw [ctm_decomp hm]
  exact List.mem_append_right root hch

/-- transpose_chord introduces no closing bracket. -/
theorem tc_not_mem_rbracket {c : List Char} (n : Int) (p : String) (h : ']' ∉ c) :
    ']' ∉ transposeChordL c n p := by
  rcases tc_shape c n p with he | ⟨root, suffix, idx, hm, hr, he⟩
  · rw [he]; exact h
  · rw [he]
    intro hmem
    rcases List.mem_append.mp hmem with h1 | h2
    · exact (entry_chars p _ (by have := rootIdx_lt hr; omega)).2.1 h1
    · exact h (suffix_mem hm h2)

/-- transpose_chord introduces no slash. -/
theorem tc_not_mem_slash {c : List Char} (n : Int) (p : String) (h : '/' ∉ c) :
    '/' ∉ transposeChordL c n p := by
  rcases tc_shape c n p with he | ⟨root, suffix, idx, hm, hr, he⟩
  · rw [he]; exact h
  · rw [he]
    intro hmem
    rcases List.mem_append.mp hmem with h1 | h2
    · exact (entry_chars p _ (by have := rootIdx_lt hr; omega)).2.2 h1
    · exact h (suffix_mem hm h2)

/-- transpose_chord maps nonempty chords to nonempty results. -/
theorem tc_ne_nil {c : List Char} (h : c ≠ []) (n : Int) (p : String) :
    transposeChordL c n p ≠ [] := by
  rcases tc_shape c n p with he | ⟨root, suffix, idx, hm, hr, he⟩
  · rw [he]; exact h
  · rw [he]
    intro hnil
    exact (entry_chars p _ (by have := rootIdx_lt hr; omega)).1
      (List.append_eq_nil.mp hnil).1

/-- The slash-free branch of the replacement. -/
theorem repl_eq_of_none {inside : List Char} (hs : splitFirst '/' inside = none)
    (n : Int) (p : String) : replInside inside n p = transposeChordL inside n p := by
  unfold replInside
  rw [hs]

/-- The slash branch of the replacement. -/
theorem repl_eq_of_some {inside a b : List Char}
    (hs : splitFirst '/' inside = some (a, b)) (n : Int) (p : String) :
    replInside inside n p = transposeChordL a n p ++ '/' :: transposeChordL b n p := by
  unfold replInside
  rw [hs]

/-- The replacement introduces no closing bracket. -/
theorem repl_not_mem_rbracket {inside : List Char} (n : Int) (p : String)
    (h : ']' ∉ inside) : ']' ∉ replInside inside n p := by
  cases hs : splitFirst '/' inside with
  | none => rw [repl_eq_of_none hs]; exact tc_not_mem_rbracket n p h
  | some pr =>
    obtain ⟨a, b⟩ := pr
    obtain ⟨hd, _⟩ := splitFirst_eq_some hs
    have hna : ']' ∉ a := fun hm => h (hd ▸ List.mem_append_left _ hm)
    have hnb : ']' ∉ b := fun hm =>
      h (hd ▸ List.mem_append_right _ (List.mem_cons_of_mem _ hm))
    rw [repl_eq_of_some hs]
    intro hmem
    rcases List.mem_append.mp hmem with h1 | h2
    · exact tc_not_mem_rbracket n p hna h1
    · rcases List.mem_cons.mp h2 with h3 | h4
      · exact absurd (hd ▸ List.mem_append_right a (h3 ▸ List.mem_cons_self '/' b)) h
      · exact tc_not_mem_rbracket n p hnb h4

/-- The replacement of a nonempty inside is nonempty. -/
theorem repl_ne_nil {inside : List Char} (h : inside ≠ []) (n : Int) (p : String) :
    replInside inside n p ≠ [] := by
  cases hs : splitFirst '/' inside with
  | none => rw [repl_eq_of_none hs]; exact tc_ne_nil h n p
  | some pr =>
    obtain ⟨a, b⟩ := pr
    rw [repl_eq_of_some hs]
    intro hnil
    exact List.cons_ne_nil '/' _ (List.append_eq_nil.mp hnil).2

/-- Replacement round trip at the token level. -/
theorem repl_roundtrip (inside : List Char) (n : Int) (p : String)
    (hg : goodInside inside = true) :
    replInside (replInside inside n p) (-n) p = replInside inside 0 p := by
  cases hs : splitFirst '/' inside with
  | none =>
    have hg2 : goodChord inside = true := by simpa [goodInside, hs] using hg
    have hns : '/' ∉ inside := splitFirst_eq_none hs
    have hns2 : '/' ∉ transposeChordL inside n p := tc_not_mem_slash n p hns
    have hs2 : splitFirst '/' (transposeChordL inside n p) = none := by
      cases h2 : splitFirst '/' (transposeChordL inside n p) with
      | none => rfl
      | some pr =>
        obtain ⟨hd, _⟩ := splitFirst_eq_some h2
        exact absurd (hd ▸ List.mem_append_right pr.1 (List.mem_cons_self '/' pr.2)) hns2
    rw [repl_eq_of_none hs n p, repl_eq_of_none hs2 (-n) p, repl_eq_of_none hs 0 p]
    exact tc_roundtrip inside n p hg2
  | some pr =>
    obtain ⟨a, b⟩ := pr
    have hgab : goodChord a = true ∧ goodChord b = true := by
      have := hg
      simp [goodInside, hs] at this
      exact this
    obtain ⟨hd, hna⟩ := splitFirst_eq_some hs
    have hnsa : '/' ∉ transposeChordL a n p := tc_not_mem_slash n p hna
    have hsplit2 : splitFirst '/' (transposeChordL a n p ++ '/' :: transposeChordL b n p)
        = some (transposeChordL a n p, transposeChordL b n p) := splitFirst_append hnsa _
    rw [repl_eq_of_some hs n p, repl_eq_of_some hsplit2 (-n) p, repl_eq_of_some hs 0 p]
    rw [tc_roundtrip a n p hgab.1, tc_roundtrip b n p hgab.2]

/-- Scanning an unclosed bracket emits the pending text verbatim. -/
theorem chordSub_no_close {n : Int} {p : String} :
    ∀ {rest : List Char} (pend : List Char), ']' ∉ rest →
      chordSubAux n p (some pend) rest = '[' :: pend.reverse ++ rest := by
  intro rest
  induction rest with
  | nil => intro pend _; simp [chordSubAux]
  | cons c t ih =>
    intro pend h
    have hc : c ≠ ']' := fun he => h (he ▸ List.mem_cons_self c t)
    have ht : ']' ∉ t := fun hm => h (List.mem_cons_of_mem _ hm)
    show chordSubAux n p (some pend) (c :: t) = _
    simp only [chordSubAux, if_neg hc]
    rw [ih (c :: pend) ht]
    simp

/-- Scanning from an open bracket up to the next closing bracket replaces
the collected inside, or emits an empty pair verbatim. -/
theorem chordSub_token {n : Int} {p : String} :
    ∀ {x : List Char} (pend t : List Char), ']' ∉ x →
      chordSubAux n p (some pend) (x ++ ']' :: t)
        = if (pend.reverse ++ x).isEmpty
          then '[' :: ']' :: chordSubAux n p none t
          else '[' :: replInside (pend.reverse ++ x) n p ++ ']' :: chordSubAux n p none t := by
  intro x
  induction x with
  | nil =>
    intro pend t _
    show chordSubAux n p (some pend) (']' :: t) = _
    by_cases hp : pend = []
    · subst hp; simp [chordSubAux]
    · have h1 : pend.isEmpty = false := by simp [List.isEmpty_iff, hp]
      have h3 : pend.reverse.isEmpty = false := by simp [List.isEmpty_iff, hp]
      simp [chordSubAux, h1, h3]
  | cons c x2 ih =>
    intro pend t h
    have hc : c ≠ ']' := fun he => h (he ▸ List.mem_cons_self c x2)
    have hx2 : ']' ∉ x2 := fun hm => h (List.mem_cons_of_mem _ hm)
    show chordSubAux n p (some pend) (c :: (x2 ++ ']' :: t)) = _
    simp only [chordSubAux, if_neg hc]
    rw [ih (c :: pend) t hx2]
    simp [List.append_assoc]

/-- lineOk analogue of chordSub_no_close. -/
theorem lineOk_no_close :
    ∀ {rest : List Char} (pend : List Char), ']' ∉ rest → lineOk (some pend) rest = true := by
  intro rest
  induction rest with
  | nil => intro pend _; rfl
  | cons c t ih =>
    intro pend h
    have hc : c ≠ ']' := fun he => h (he ▸ List.mem_cons_self c t)
    have ht : ']' ∉ t := fun hm => h (List.mem_cons_of_mem _ hm)
    show lineOk (some pend) (c :: t) = true
    simp only [lineOk, if_neg hc]
    exact ih (c :: pend) ht

/-- lineOk analogue of chordSub_token. -/
theorem lineOk_token :
    ∀ {x : List Char} (pend t : List Char), ']' ∉ x →
      lineOk (some pend) (x ++ ']' :: t)
        = (((pend.reverse ++ x).isEmpty || goodInside (pend.reverse ++ x)) && lineOk none t) := by
  intro x
  induction x with
  | nil =>
    intro pend t _
    show lineOk (some pend) (']' :: t) = _
    by_cases hp : pend = []
    · subst hp; simp [lineOk]
    · have h1 : pend.isEmpty = false := by simp [List.isEmpty_iff, hp]
      have h3 : pend.reverse.isEmpty = false := by simp [List.isEmpty_iff, hp]
      simp [lineOk, h1, h3]
  | cons c x2 ih =>
    intro pend t h
    have hc : c ≠ ']' := fun he => h (he ▸ List.mem_cons_self c x2)
    have hx2 : ']' ∉ x2 := fun hm => h (List.mem_cons_of_mem _ hm)
    show lineOk (some pend) (c :: (x2 ++ ']' :: t)) = _
    simp only [lineOk, if_neg hc]
    rw [ih (c :: pend) t hx2]
    simp [List.append_assoc]

/-- Opening bracket enters the collecting state. -/
theorem chordSub_open (m : Int) (p : String) (rest : List Char) :
    chordSubAux m p none ('[' :: rest) = chordSubAux m p (some []) rest := by
  simp [chordSubAux]

/-- Other characters outside brackets pass through. -/
theorem chordSub_other {c : Char} (hc : c ≠ '[') (m : Int) (p : String) (rest : List Char) :
    chordSubAux m p none (c :: rest) = c :: chordSubAux m p none rest := by
  simp [chordSubAux, hc]

/-- lineOk analogue of chordSub_open. -/
theorem lineOk_open (rest : List Char) :
    lineOk none ('[' :: rest) = lineOk (some []) rest := by
  simp [lineOk]

/-- lineOk analogue of chordSub_other. -/
theorem lineOk_other {c : Char} (hc : c ≠ '[') (rest : List Char) :
    lineOk none (c :: rest) = lineOk none rest := by
  simp [lineOk, hc]

/-- The main line-level round trip, by strong induction on the length of
the line: transposing a line by n and then by minus n agrees with
transposing it by zero, provided every bracketed token is good. -/
theorem chordSub_roundtrip_aux (n : Int) (p : String) :
    ∀ (N : Nat) (l : List Char), l.length ≤ N → lineOk none l = true →
      chordSubAux (-n) p none (chordSubAux n p none l) = chordSubAux 0 p none l := by
  intro N
  induction N with
  | zero =>
    intro l hl _
    have : l = [] := List.length_eq_zero.mp (Nat.le_zero.mp hl)
    subst this; rfl
  | succ N ih =>
    intro l hl hok
    cases l with
    | nil => rfl
    | cons c rest =>
      by_cases hc : c = '['
      · subst hc
        cases hs : splitFirst ']' rest with
        | none =>
          have hnc : ']' ∉ rest := splitFirst_eq_none hs
          have heq : ∀ m : Int, chordSubAux m p none ('[' :: rest) = '[' :: rest := by
            intro m
            rw [chordSub_open, chordSub_no_close [] hnc]
            rfl
          rw [heq n, heq (-n), heq 0]
        | some pr =>
          obtain ⟨inside, after⟩ := pr
          obtain ⟨hdec, hnc⟩ := splitFirst_eq_some hs
          subst hdec
          have hlen : after.length ≤ N := by
            simp [List.length_append] at hl
            omega
          by_cases hie : inside = []
          · subst hie
            have hok2 : lineOk none after = true := by
              have hh := hok
              rw [List.nil_append, lineOk_open] at hh
              simpa [lineOk] using hh
            have heq : ∀ (m : Int) (t : List Char),
                chordSubAux m p none ('[' :: ']' :: t) = '[' :: ']' :: chordSubAux m p none t := by
              intro m t
              show chordSubAux m p none ('[' :: ']' :: t) = _
              simp [chordSubAux]
            rw [List.nil_append, heq n after, heq (-n) (chordSubAux n p none after),
              heq 0 after, ih after hlen hok2]
          · have hine : inside.isEmpty = false := by simp [List.isEmpty_iff, hie]
            have hok2 : goodInside inside = true ∧ lineOk none after = true := by
              have hh := hok
              rw [lineOk_open, lineOk_token [] after hnc] at hh
              simp only [List.reverse_nil, List.nil_append, hine, Bool.false_or,
                Bool.and_eq_true] at hh
              exact hh
            have hstep : ∀ m : Int,
                chordSubAux m p none ('[' :: (inside ++ ']' :: after))
                  = '[' :: replInside inside m p ++ ']' :: chordSubAux m p none after := by
              intro m
              rw [chordSub_open, chordSub_token [] after hnc]
              simp only [List.reverse_nil, List.nil_append, hine, Bool.false_eq_true, if_false]
            have hR_ne : replInside inside n p ≠ [] := repl_ne_nil hie n p
            have hR_nc : ']' ∉ replInside inside n p := repl_not_mem_rbracket n p hnc
            have hRe : (replInside inside n p).isEmpty = false := by
              simp [List.isEmpty_iff, hR_ne]
            have houter :
                chordSubAux (-n) p none
                    ('[' :: (replInside inside n p ++ ']' :: chordSubAux n p none after))
                  = '[' :: replInside (replInside inside n p) (-n) p
                      ++ ']' :: chordSubAux (-n) p none (chordSubAux n p none after) := by
              rw [chordSub_open, chordSub_token [] (chordSubAux n p none after) hR_nc]
              simp only [List.reverse_nil, List.nil_append, hRe, Bool.false_eq_true, if_false]
            rw [hstep n]
            rw [show ('[' :: replInside inside n p ++ ']' :: chordSubAux n p none after)
                = ('[' :: (replInside inside n p ++ ']' :: chordSubAux n p none after)) from rfl]
            rw [houter, repl_roundtrip inside n p hok2.1,
              ih after hlen hok2.2, hstep 0]
      · have hok2 : lineOk none rest = true := by
          have hh := hok
          rw [lineOk_other hc] at hh
          exact hh
        have hlen : rest.length ≤ N := by
          simp at hl
          omega
        rw [chordSub_other hc n p rest, chordSub_other hc (-n) p (chordSubAux n p none rest),
          chordSub_other hc 0 p rest, ih rest hlen hok2]

/-- Lines without an opening bracket pass through the scanner unchanged at
every offset. -/
theorem chordSub_no_open {n : Int} {p : String} :
    ∀ {l : List Char}, '[' ∉ l → chordSubAux n p none l = l := by
  intro l
  induction l with
  | nil => intro _; rfl
  | cons c rest ih =>
    intro h
    have hc : c ≠ '[' := fun he => h (he ▸ List.mem_cons_self c rest)
    have ht : '[' ∉ rest := fun hm => h (List.mem_cons_of_mem _ hm)
    rw [chordSub_other hc, ih ht]

/-- Zero-offset scanning is the identity when every token is fixed by the
zero-offset replacement; proved simultaneously for both scanner states. -/
theorem chordSub_zero_fix (p : String) :
    ∀ l : List Char,
      (lineFixedAtZero p none l = true → chordSubAux 0 p none l = l)
      ∧ ∀ pend : List Char, lineFixedAtZero p (some pend) l = true →
          chordSubAux 0 p (some pend) l = '[' :: pend.reverse ++ l := by
  intro l
  induction l with
  | nil =>
    refine ⟨fun _ => rfl, fun pend _ => ?_⟩
    simp [chordSubAux]
  | cons c rest ih =>
    constructor
    · intro h
      by_cases hc : c = '['
      · subst hc
        rw [chordSub_open]
        have h2 : lineFixedAtZero p (some []) rest = true := by
          simpa [lineFixedAtZero] using h
        rw [ih.2 [] h2]
        rfl
      · rw [chordSub_other hc]
        have h2 : lineFixedAtZero p none rest = true := by
          simpa [lineFixedAtZero, hc] using h
        rw [ih.1 h2]
    · intro pend h
      by_cases hc : c = ']'
      · subst hc
        by_cases hp : pend = []
        · subst hp
          have h2 : lineFixedAtZero p none rest = true := by
            simpa [lineFixedAtZero] using h
          show chordSubAux 0 p (some []) (']' :: rest) = _
          simp [chordSubAux, ih.1 h2]
        · have h1 : pend.isEmpty = false := by simp [List.isEmpty_iff, hp]
          have h2 : (replInside pend.reverse 0 p == pend.reverse) = true
              ∧ lineFixedAtZero p none rest = true := by
            have hh := h
            simp only [lineFixedAtZero, reduceIte, h1, Bool.false_or,
              Bool.and_eq_true] at hh
            exact hh
          have hfix : replInside pend.reverse 0 p = pend.reverse := eq_of_beq h2.1
          show chordSubAux 0 p (some pend) (']' :: rest) = _
          simp only [chordSubAux, reduceIte, h1, Bool.false_eq_true, if_false]
          rw [hfix, ih.1 h2.2]
      · have h2 : lineFixedAtZero p (some (c :: pend)) rest = true := by
          simpa [lineFixedAtZero, hc] using h
        show chordSubAux 0 p (some pend) (c :: rest) = _
        simp only [chordSubAux, if_neg hc]
        rw [ih.2 (c :: pend) h2]
        simp

/-- Root letters are not whitespace. -/
theorem rootletter_nospace {x : Char} (h1 : 'A' ≤ x) : pyIsSpace x = false := by
  simp only [pyIsSpace, Bool.or_eq_false_iff, decide_eq_false_iff_not]
  refine ⟨⟨⟨⟨⟨?_, ?_⟩, ?_⟩, ?_⟩, ?_⟩, ?_⟩ <;>
    intro he <;> subst he <;> exact absurd h1 (by decide)

/-- A valid root string is already stripped and has a root format. -/
theorem validRoot_strip {r : String} (h : validRoot r) :
    pyStrip r.data = r.data ∧ rootFormat r.data = true := by
  unfold validRoot at h
  cases hd : r.data with
  | nil => rw [hd] at h; simp [chordTokenMatch] at h
  | cons c rest =>
    rw [hd] at h
    by_cases hc : ('A' ≤ c && c ≤ 'G') = true
    · have hc1 : 'A' ≤ c := by
        simp only [Bool.and_eq_true, decide_eq_true_eq] at hc
        exact hc.1
      cases rest with
      | nil =>
        refine ⟨?_, by simp [rootFormat, hc]⟩
        exact pyStrip_eq_self
          (fun z hz => by
            have : c = z := by simpa using hz
            exact this ▸ rootletter_nospace hc1)
          (fun z hz => by
            have : c = z := by simpa using hz
            exact this ▸ rootletter_nospace hc1)
      | cons d rest2 =>
        by_cases hdacc : (d = '#' || d = 'b') = true
        · simp only [chordTokenMatch, hc, if_true, hdacc] at h
          have hinj := Option.some.inj h
          have h1 : ([c, d] : List Char) = c :: d :: rest2 := congrArg Prod.fst hinj
          have h2 : rest2 = [] := by
            have := congrArg (List.length) h1
            simp at this
            simp [this]
          subst h2
          have hdns : pyIsSpace d = false := by
            rcases Bool.or_eq_true_iff.mp hdacc with hh | hh <;>
              rw [decide_eq_true_eq.mp hh] <;> decide
          refine ⟨?_, by simp [rootFormat, hc, hdacc]⟩
          exact pyStrip_eq_self
            (fun z hz => by
              have : c = z := by simpa using hz
              exact this ▸ rootletter_nospace hc1)
            (fun z hz => by
              have : d = z := by simpa using hz
              exact this ▸ hdns)
        · simp only [chordTokenMatch, hc, if_true, hdacc, Bool.false_eq_true, if_false] at h
          have hinj := Option.some.inj h
          have h2 : d :: rest2 = ([] : List Char) := congrArg Prod.snd hinj
          simp at h2
    · simp only [chordTokenMatch, hc, Bool.false_eq_true, if_false] at h
      exact Option.noConfusion h

/-- A parsed chord with an empty suffix is good. -/
theorem goodChord_empty_suffix {c root : List Char}
    (hm : chordTokenMatch (pyStrip c) = some (root, [])) : goodChord c = true := by
  unfold goodChord
  rw [hm]
  dsimp only
  cases rootIdx root <;> rfl

/-- Zero-offset chord transposition preserves the pitch class of a chord
with empty suffix. -/
theorem pitch_zero {l root : List Char}
    (hm : chordTokenMatch (pyStrip l) = some (root, [])) (p : String) :
    pitchClassOfL (transposeChordL l 0 p) = pitchClassOfL l := by
  cases hr : rootIdx root with
  | none =>
    rw [tc_unchanged_of_nolookup hm hr 0 p]
  | some idx =>
    have hidx : idx < 12 := rootIdx_lt hr
    rw [tc_success hm hr 0 p]
    have he : (((idx : Int) + 0) % 12).toNat = idx := by omega
    rw [he]
    obtain ⟨hc2, hr2⟩ := @prefSeq_reparse p idx hidx [] rfl
      (fun z hz => by simp at hz)
    unfold pitchClassOfL
    rw [hc2, hm]
    dsimp only
    rw [hr2, hr]

/-! ## Claim theorems for the transposition engine -/

/-- C1 counterexample: transposing the line containing the token Db by zero
semitones with sharp preference re-spells it to C sharp, so the output is
not byte-identical to the input. -/
theorem C1_zero_identity_counterexample :
    transpose_line "[Db]" 0 "sharp" = "[C#]" ∧ ("[C#]" : String) ≠ "[Db]" :=
  ⟨by decide, by decide⟩

/-- C1 amended: transposing a line by zero semitones is the identity exactly
when every bracketed token is left unchanged by the zero-offset chord
replacement; in particular every line without an opening bracket is
unchanged at every offset.  In general zero-offset transposition may
re-spell a chord root per the accidental preference. -/
theorem C1_zero_identity_amended :
    (∀ (s p : String), lineFixedAtZero p none s.data = true →
        transpose_line s 0 p = s)
    ∧ (∀ (s : String) (n : Int) (p : String), '[' ∉ s.data → transpose_line s n p = s) := by
  constructor
  · intro s p h
    unfold transpose_line
    rw [(chordSub_zero_fix p s.data).1 h]
  · intro s n p h
    unfold transpose_line
    rw [chordSub_no_open h]

/-- C1 witness: the amended theorem applied to a line with a canonically
spelled token and to a bracket-free line. -/
theorem C1_zero_identity_witness :
    (lineFixedAtZero "sharp" none ("x [C]y" : String).data = true
      ∧ transpose_line "x [C]y" 0 "sharp" = "x [C]y")
    ∧ ('[' ∉ ("hello world" : String).data
      ∧ transpose_line "hello world" 5 "flat" = "hello world") :=
  ⟨⟨by decide, C1_zero_identity_amended.1 "x [C]y" "sharp" (by decide)⟩,
   ⟨by decide, C1_zero_identity_amended.2 "hello world" 5 "flat" (by decide)⟩⟩

/-- C2 counterexample: the token C sharp followed by suffix b parses
successfully (root C sharp, table position one), yet transposing the line
by three semitones and back with sharp preference yields the line with
token C, which differs from the zero-offset transposition of the line. -/
theorem C2_roundtrip_counterexample :
    chordTokenMatch (pyStrip ("C#b" : String).data) = some (['C', '#'], ['b'])
    ∧ rootIdx ['C', '#'] = some 1
    ∧ transpose_line (transpose_line "[C#b]" 3 "sharp") (-3) "sharp" = "[C]"
    ∧ transpose_line "[C#b]" 0 "sharp" = "[C#b]"
    ∧ ("[C]" : String) ≠ "[C#b]" :=
  ⟨by decide, by decide, by decide, by decide, by decide⟩

/-- C2 amended: for every valid chord root, transposing by n and then by
minus n returns the original pitch class for every preference; lifted to
lines, the round trip agrees with zero-offset transposition provided each
parsed token has a suffix that does not begin with an accidental mark. -/
theorem C2_roundtrip_amended :
    (∀ (r : String) (n : Int) (p : String), validRoot r →
        pitchClassOf (transpose_chord (transpose_chord r n p) (-n) p) = pitchClassOf r)
    ∧ (∀ (s : String) (n : Int) (p : String), lineOk none s.data = true →
        transpose_line (transpose_line s n p) (-n) p = transpose_line s 0 p) := by
  constructor
  · intro r n p hv
    obtain ⟨hstrip, _⟩ := validRoot_strip hv
    have hm : chordTokenMatch (pyStrip r.data) = some (r.data, []) := by
      rw [hstrip]; exact hv
    have hgood : goodChord r.data = true := goodChord_empty_suffix hm
    have hrt : transposeChordL (transposeChordL r.data n p) (-n) p
        = transposeChordL r.data 0 p := tc_roundtrip r.data n p hgood
    show pitchClassOfL (transposeChordL (transposeChordL r.data n p) (-n) p)
        = pitchClassOfL r.data
    rw [hrt]
    exact pitch_zero hm p
  · intro s n p h
    show String.mk (chordSubAux (-n) p none (chordSubAux n p none s.data))
        = String.mk (chordSubAux 0 p none s.data)
    rw [chordSub_roundtrip_aux n p s.data.length s.data (Nat.le_refl _) h]

/-- C2 witness: the amended theorem applied to the root Db and to a line
with a minor chord and a slash chord. -/
theorem C2_roundtrip_witness :
    (validRoot "Db"
      ∧ pitchClassOf (transpose_chord (transpose_chord "Db" 5 "flat") (-5) "flat")
          = pitchClassOf "Db")
    ∧ (lineOk none ("[Am]x [D/F#]y" : String).data = true
      ∧ transpose_line (transpose_line "[Am]x [D/F#]y" 4 "sharp") (-4) "sharp"
          = transpose_line "[Am]x [D/F#]y" 0 "sharp") :=
  ⟨⟨by unfold validRoot; decide, C2_roundtrip_amended.1 "Db" 5 "flat" (by unfold validRoot; decide)⟩,
   ⟨by decide, C2_roundtrip_amended.2 "[Am]x [D/F#]y" 4 "sharp" (by decide)⟩⟩

/-- C6 counterexample: the token text starting with a space is not a valid
root letter, yet the engine strips it and transposes the chord instead of
passing the token through unchanged. -/
theorem C6_unparsable_counterexample :
    (" C" : String).data.head? = some ' '
    ∧ ('A' ≤ ' ' && ' ' ≤ 'G') = false
    ∧ transpose_line "[ C]" 2 "sharp" = "[D]"
    ∧ ("[D]" : String) ≠ "[ C]" :=
  ⟨by decide, by decide, by decide, by decide⟩

/-- C6 amended: a chord whose stripped text does not start with a valid
root letter is returned unchanged at every offset and preference, and the
bracketed token XYZ passes through every transposition untouched; the
transposition functions are total, so no error is possible. -/
theorem C6_unparsable_amended :
    (∀ (c : String) (n : Int) (p : String),
        chordTokenMatch (pyStrip c.data) = none → transpose_chord c n p = c)
    ∧ (∀ (n : Int) (p : String), transpose_line "[XYZ]" n p = "[XYZ]") := by
  constructor
  · intro c n p hm
    unfold transpose_chord
    rw [tc_unchanged_of_nomatch hm n p]
  · intro n p
    rfl

/-- C6 witness: the amended theorem applied to the chord XYZ and to the
line with token XYZ at concrete offsets. -/
theorem C6_unparsable_witness :
    (chordTokenMatch (pyStrip ("XYZ" : String).data) = none
      ∧ transpose_chord "XYZ" 4 "flat" = "XYZ")
    ∧ transpose_line "[XYZ]" 9 "sharp" = "[XYZ]" :=
  ⟨⟨by decide, C6_unparsable_amended.1 "XYZ" 4 "flat" (by decide)⟩,
   C6_unparsable_amended.2 9 "sharp"⟩

/-- C7: a bracketed token containing a slash is split at the first slash,
both halves are transposed independently and rejoined with a slash; and
the slash chord D over F sharp transposed by two semitones with sharp
preference yields E over G sharp. -/
theorem C7_slash_chords :
    (∀ (inside : String) (n : Int) (p : String) (a b : List Char),
        splitFirst '/' inside.data = some (a, b) → ']' ∉ inside.data →
        transpose_line (String.mk ('[' :: inside.data ++ [']'])) n p
          = String.mk ('[' :: (transposeChordL a n p ++ '/' :: transposeChordL b n p) ++ [']']))
    ∧ transpose_line "[D/F#]" 2 "sharp" = "[E/G#]" := by
  constructor
  · intro inside n p a b hs hnc
    show String.mk (chordSubAux n p none ('[' :: inside.data ++ [']'])) = _
    congr 1
    rw [show ('[' :: inside.data ++ [']']) = ('[' :: (inside.data ++ ']' :: [])) from rfl]
    rw [chordSub_open, chordSub_token [] [] hnc]
    have hne : inside.data ≠ [] := by
      obtain ⟨hd, _⟩ := splitFirst_eq_some hs
      rw [hd]; simp
    have hie : inside.data.isEmpty = false := by simp [List.isEmpty_iff, hne]
    simp only [List.reverse_nil, List.nil_append, hie, Bool.false_eq_true, if_false]
    rw [repl_eq_of_some hs n p]
    rfl
  · decide

/-- C7 witness: the general slash-splitting statement applied to the token
D over F sharp at offset two with sharp preference. -/
theorem C7_slash_chords_witness :
    splitFirst '/' ("D/F#" : String).data = some (['D'], ['F', '#'])
    ∧ ']' ∉ ("D/F#" : String).data
    ∧ transpose_line (String.mk ('[' :: ("D/F#" : String).data ++ [']'])) 2 "sharp"
        = String.mk ('[' :: (transposeChordL ['D'] 2 "sharp"
            ++ '/' :: transposeChordL ['F', '#'] 2 "sharp") ++ [']']) :=
  ⟨by decide, by decide,
   C7_slash_chords.1 "D/F#" 2 "sharp" ['D'] ['F', '#'] (by decide) (by decide)⟩

/-- C8: every chord token that parses into a root and a suffix is either
returned entirely unchanged (when the root is in neither note table) or
rewritten to a table spelling followed by the original suffix verbatim;
the suffix is never interpreted or mutated. -/
theorem C8_suffix_verbatim :
    ∀ (c : String) (n : Int) (p : String) (root suffix : List Char),
      chordTokenMatch (pyStrip c.data) = some (root, suffix) →
      (rootIdx root = none ∧ transpose_chord c n p = c)
      ∨ ∃ q, q < 12
          ∧ (transpose_chord c n p).data = ((prefSeq p).getD q "").data ++ suffix := by
  intro c n p root suffix hm
  cases hr : rootIdx root with
  | none =>
    refine Or.inl ⟨rfl, ?_⟩
    unfold transpose_chord
    rw [tc_unchanged_of_nolookup hm hr n p]
  | some idx =>
    refine Or.inr ⟨(((idx : Int) + n) % 12).toNat, by have := rootIdx_lt hr; omega, ?_⟩
    show transposeChordL c.data n p = _
    exact tc_success hm hr n p

/-- C8 witness: the theorem applied to the chord C major seven at offset
one with sharp preference. -/
theorem C8_suffix_verbatim_witness :
    chordTokenMatch (pyStrip ("Cmaj7" : String).data) = some (['C'], ['m', 'a', 'j', '7'])
    ∧ ((rootIdx ['C'] = none ∧ transpose_chord "Cmaj7" 1 "sharp" = "Cmaj7")
      ∨ ∃ q, q < 12
          ∧ (transpose_chord "Cmaj7" 1 "sharp").data
              = ((prefSeq "sharp").getD q "").data ++ ['m', 'a', 'j', '7']) :=
  ⟨by decide, C8_suffix_verbatim "Cmaj7" 1 "sharp" ['C'] ['m', 'a', 'j', '7'] (by decide)⟩

/-! ## Renderer B lemmas -/

/-- The replacement output contains no space character. -/
theorem replaceSpaces_no_space : ∀ l : List Char, ' ' ∉ replaceSpaces l := by
  intro l
  induction l with
  | nil => simp [replaceSpaces]
  | cons c rest ih =>
    intro hmem
    by_cases hc : c = ' '
    · simp only [replaceSpaces, if_pos hc, List.mem_cons] at hmem
      rcases hmem with h | h | h | h | h | h | h
      · exact absurd h (by decide)
      · exact absurd h (by decide)
      · exact absurd h (by decide)
      · exact absurd h (by decide)
      · exact absurd h (by decide)
      · exact absurd h (by decide)
      · exact ih h
    · simp only [replaceSpaces, if_neg hc, List.mem_cons] at hmem
      rcases hmem with h | h
      · exact hc h.symm
      · exact ih h

/-- Every character of every cell produced by the collecting loop occurs in
the scanned text. -/
theorem wc_mem : ∀ (fuel : Nat) (rest cell : List Char),
    (cell ∈ (wcSplitAux fuel rest).1 ∨ cell ∈ (wcSplitAux fuel rest).2) →
    ∀ ch ∈ cell, ch ∈ rest := by
  intro fuel
  induction fuel with
  | zero =>
    intro rest cell h ch hch
    rcases h with h | h
    · simp [wcSplitAux] at h
    · simp [wcSplitAux] at h
      subst h
      exact hch
  | succ fuel ih =>
    intro rest cell h ch hch
    cases h1 : splitFirst '[' rest with
    | none =>
      rcases h with h | h
      · simp [wcSplitAux, h1] at h
      · simp [wcSplitAux, h1] at h
        subst h; exact hch
    | some pr1 =>
      obtain ⟨before, afterOpen⟩ := pr1
      cases h2 : splitFirst ']' afterOpen with
      | none =>
        rcases h with h | h
        · simp [wcSplitAux, h1, h2] at h
        · simp [wcSplitAux, h1, h2] at h
          subst h; exact hch
      | some pr2 =>
        obtain ⟨chord, after⟩ := pr2
        obtain ⟨hd1, _⟩ := splitFirst_eq_some h1
        obtain ⟨hd2, _⟩ := splitFirst_eq_some h2
        simp only [wcSplitAux, h1, h2] at h
        have push : ch ∈ afterOpen → ch ∈ rest := fun hin =>
          hd1 ▸ List.mem_append_right before (List.mem_cons_of_mem '[' hin)
        rcases h with h | h
        · rcases List.mem_cons.mp h with he | hm
          · subst he
            exact push (hd2 ▸ List.mem_append_left _ hch)
          · exact push (hd2 ▸ List.mem_append_right chord
              (List.mem_cons_of_mem ']' (ih after cell (Or.inl hm) ch hch)))
        · rcases List.mem_cons.mp h with he | hm
          · subst he
            exact hd1 ▸ List.mem_append_left _ hch
          · exact push (hd2 ▸ List.mem_append_right chord
              (List.mem_cons_of_mem ']' (ih after cell (Or.inr hm) ch hch)))

/-- Cells of the trimmed lists are the empty cell or cells of the loop. -/
theorem cells_sub (line : List Char) {cell : List Char}
    (h : cell ∈ (parse_chopro_cellsList line).1 ∨ cell ∈ (parse_chopro_cellsList line).2) :
    cell ∈ ([] :: (wcSplitAux (replaceSpaces line).length (replaceSpaces line)).1)
    ∨ cell ∈ (wcSplitAux (replaceSpaces line).length (replaceSpaces line)).2 := by
  simp only [parse_chopro_cellsList] at h
  rcases h with h | h
  · left
    revert h
    split
    · exact fun h => List.drop_subset 1 _ h
    · exact fun h => h
  · right
    revert h
    split
    · exact fun h => List.drop_subset 1 _ h
    · exact fun h => h

/-- No cell of parse_chopro_line contains a space character. -/
theorem parse_cells_no_space (line : List Char) {cell : List Char}
    (h : cell ∈ (parse_chopro_cellsList line).1 ∨ cell ∈ (parse_chopro_cellsList line).2) :
    ' ' ∉ cell := by
  intro hsp
  rcases cells_sub line h with h2 | h2
  · rcases List.mem_cons.mp h2 with he | hm
    · subst he; simp at hsp
    · exact replaceSpaces_no_space line (wc_mem _ _ cell (Or.inl hm) ' ' hsp)
  · exact replaceSpaces_no_space line (wc_mem _ _ cell (Or.inr h2) ' ' hsp)

/-- One mode step keeps the mode below four. -/
theorem modeStep_lt {m : Nat} (line : List Char) (hm : m < 4) : modeStep m line < 4 := by
  unfold modeStep
  cases hact : modeAct line <;> dsimp only
  · interval_cases m <;> decide
  · omega
  · interval_cases m <;> decide
  · split <;> omega
  · omega

/-- The folded mode stays below four from any mode below four. -/
theorem mode_fold_lt : ∀ (lines : List (List Char)) (m : Nat), m < 4 →
    lines.foldl modeStep m < 4 := by
  intro lines
  induction lines with
  | nil => intro m hm; simpa using hm
  | cons l rest ih =>
    intro m hm
    simp only [List.foldl_cons]
    exact ih _ (modeStep_lt l hm)

set_option maxRecDepth 16384

/-! ## Claim theorems for Renderer B -/

/-- C3 counterexample: the line starting with a chord does not produce the
claimed three-cell grid with a leading empty chord cell; the code removes
the leading empty cells when the line begins with a chord, and spaces have
become nbsp entities. -/
theorem C3_grid_counterexample :
    parse_chopro_cells "[G]Amazing [C]grace" ≠ (["", "G", "C"], ["", "Amazing ", "grace"])
    ∧ (parse_chopro_cells "[G]Amazing [C]grace").2.length = 2 :=
  ⟨by decide, by decide⟩

/-- C3 amended: the line produces a two-row grid with two lyric cells, the
nbsp-replaced Amazing fragment and grace, and chords G and C aligned to
cells one and two; the leading empty chord and lyric cells are dropped
because the line begins with a chord. -/
theorem C3_grid_amended :
    parse_chopro_cells "[G]Amazing [C]grace" = (["G", "C"], ["Amazing&nbsp;", "grace"])
    ∧ parse_chopro_line "[G]Amazing [C]grace" 0
      = "<TABLE cellpadding=\"0\" cellspacing=\"0\"><TR><TD class=\"chords\">G</TD><TD class=\"chords\">C</TD></TR><TR><TD class=\"lyrics\">Amazing&nbsp;</TD><TD class=\"lyrics\">grace</TD></TR></TABLE>\n" :=
  ⟨by decide, by decide⟩

/-- C9: after processing any list of lines the section mode of chopro2html
is one of the four combinations of the chorus bit and the tab bit; the
chorus directives change only the low bit, the tab directives change only
the high bit, and both bits can be active at once. -/
theorem C9_mode_invariant :
    (∀ lines : List (List Char), chopro2html_mode lines < 4)
    ∧ (∀ (m : Nat) (line : List Char), m < 4 →
        modeAct line = ModeAct.setChorus ∨ modeAct line = ModeAct.clearChorus →
        modeStep m line / 2 = m / 2)
    ∧ (∀ (m : Nat) (line : List Char), m < 4 →
        modeAct line = ModeAct.setTab ∨ modeAct line = ModeAct.clearTab →
        modeStep m line % 2 = m % 2)
    ∧ modeAct ("\x7bstart_of_chorus\x7d" : String).data = ModeAct.setChorus
    ∧ modeAct ("\x7bend_of_chorus\x7d" : String).data = ModeAct.clearChorus
    ∧ modeAct ("\x7bstart_of_tab\x7d" : String).data = ModeAct.setTab
    ∧ modeAct ("\x7bend_of_tab\x7d" : String).data = ModeAct.clearTab
    ∧ chopro2html_mode [("\x7bstart_of_chorus\x7d" : String).data,
        ("\x7bstart_of_tab\x7d" : String).data] = 3 := by
  refine ⟨fun lines => mode_fold_lt lines 0 (by decide), ?_, ?_,
    by decide, by decide, by decide, by decide, by decide⟩
  · intro m line hm hact
    rcases hact with h | h
    · unfold modeStep
      rw [h]
      dsimp only
      interval_cases m <;> decide
    · unfold modeStep
      rw [h]
      dsimp only
      omega
  · intro m line hm hact
    rcases hact with h | h
    · unfold modeStep
      rw [h]
      dsimp only
      interval_cases m <;> decide
    · unfold modeStep
      rw [h]
      dsimp only
      interval_cases m <;> decide

/-- C9 witness: the bit statements applied to mode one and the concrete tab
and chorus directives. -/
theorem C9_mode_invariant_witness :
    ((1 : Nat) < 4
      ∧ modeAct ("\x7bsoc\x7d" : String).data = ModeAct.setChorus
      ∧ modeStep 1 ("\x7bsoc\x7d" : String).data / 2 = 1 / 2)
    ∧ ((2 : Nat) < 4
      ∧ modeAct ("\x7beot\x7d" : String).data = ModeAct.clearTab
      ∧ modeStep 2 ("\x7beot\x7d" : String).data % 2 = 2 % 2) :=
  ⟨⟨by decide, by decide,
    C9_mode_invariant.2.1 1 ("\x7bsoc\x7d" : String).data (by decide) (Or.inl (by decide))⟩,
   ⟨by decide, by decide,
    C9_mode_invariant.2.2.1 2 ("\x7beot\x7d" : String).data (by decide) (Or.inr (by decide))⟩⟩

/-- C10: every space of a content line is replaced by the nbsp entity
before the chord split, so no chord or lyric cell of the emitted grid
contains a space character; concretely, a line with spaces inside and
outside a bracketed chord renders with nbsp in both the chord cell and the
lyric cells, and a chord-free line renders as a lyric block with nbsp. -/
theorem C10_nbsp_replacement :
    (∀ line cell : List Char,
        cell ∈ (parse_chopro_cellsList line).1 ∨ cell ∈ (parse_chopro_cellsList line).2 →
        ' ' ∉ cell)
    ∧ parse_chopro_line "a b [C d]e" 0
      = "<TABLE cellpadding=\"0\" cellspacing=\"0\"><TR><TD class=\"chords\"></TD><TD class=\"chords\">C&nbsp;d</TD></TR><TR><TD class=\"lyrics\">a&nbsp;b&nbsp;</TD><TD class=\"lyrics\">e</TD></TR></TABLE>\n"
    ∧ parse_chopro_line "Amazing grace" 0 = "<DIV class=\"lyrics\">Amazing&nbsp;grace</DIV>\n" :=
  ⟨fun line cell h => parse_cells_no_space line h, by decide, by decide⟩

/-- C10 witness: the no-space statement applied to the chord cell of the
concrete line with spaces inside the bracketed chord. -/
theorem C10_nbsp_replacement_witness :
    (("C&nbsp;d" : String).data ∈ (parse_chopro_cellsList ("a b [C d]e" : String).data).1
      ∨ ("C&nbsp;d" : String).data ∈ (parse_chopro_cellsList ("a b [C d]e" : String).data).2)
    ∧ ' ' ∉ ("C&nbsp;d" : String).data :=
  ⟨Or.inl (by decide),
   C10_nbsp_replacement.1 ("a b [C d]e" : String).data ("C&nbsp;d" : String).data
     (Or.inl (by decide))⟩

/-! ## Claim theorem for the transpose query parameter -/

/-- C5 evaluation: a missing transpose value defaults to zero and a signed
integer with an explicit plus is accepted, but a non-numeric value makes
the int conversion raise ValueError (modelled as none), producing a
request error instead of the zero default the specification demands. -/
theorem C5_transpose_bug_eval :
    render_song_transpose none = some 0
    ∧ render_song_transpose (some "+2") = some 2
    ∧ render_song_transpose (some "-3") = some (-3)
    ∧ render_song_transpose (some " 7 ") = some 7
    ∧ render_song_transpose (some "abc") = none
    ∧ render_song_transpose (some "") = none :=
  ⟨by decide, by decide, by decide, by decide, by decide, by decide⟩

/-! ## Normalization lemmas -/

/-- dropConsumed distributes over append with the index advanced by the
length of the first part. -/
theorem dropConsumed_append (S : List Nat) :
    ∀ (x y : List (List Char)) (k : Nat),
      dropConsumed S k (x ++ y) = dropConsumed S k x ++ dropConsumed S (k + x.length) y := by
  intro x
  induction x with
  | nil => intro y k; simp [dropConsumed]
  | cons l ls ih =>
    intro y k
    show dropConsumed S k (l :: (ls ++ y)) = _
    by_cases hk : S.contains k
    · simp only [dropConsumed, hk, if_true, ih y (k + 1), List.length_cons]
      rw [show k + (ls.length + 1) = k + 1 + ls.length by omega]
    · simp only [dropConsumed, hk, Bool.false_eq_true, if_false, ih y (k + 1),
        List.length_cons, List.cons_append]
      rw [show k + (ls.length + 1) = k + 1 + ls.length by omega]

/-- dropConsumed keeps a segment whose index range misses the set. -/
theorem dropConsumed_no_hit (S : List Nat) :
    ∀ (x : List (List Char)) (k : Nat), (∀ j ∈ S, j < k ∨ k + x.length ≤ j) →
      dropConsumed S k x = x := by
  intro x
  induction x with
  | nil => intro k _; rfl
  | cons l ls ih =>
    intro k h
    have hk : S.contains k = false := by
      by_contra hc
      have hmem : k ∈ S := by
        have := Bool.not_eq_false _ |>.mp hc
        simpa using this
      have hh := h k hmem
      simp only [List.length_cons] at hh
      omega
    have hrec := ih (k + 1) (by
      intro j hj
      have hh := h j hj
      simp only [List.length_cons] at hh
      omega)
    simp only [dropConsumed, hk, Bool.false_eq_true, if_false, hrec]

/-- dropConsumed only depends on the membership of indices at or above the
running index. -/
theorem dropConsumed_congr (S S2 : List Nat) :
    ∀ (x : List (List Char)) (k : Nat),
      (∀ idx, k ≤ idx → S.contains idx = S2.contains idx) →
      dropConsumed S k x = dropConsumed S2 k x := by
  intro x
  induction x with
  | nil => intro k _; rfl
  | cons l ls ih =>
    intro k h
    have hk := h k (Nat.le_refl k)
    simp only [dropConsumed, hk]
    by_cases h2 : S2.contains k = true
    · simp only [h2, if_true]
      exact ih (k + 1) (fun idx hidx => h idx (by omega))
    · simp only [h2, Bool.false_eq_true, if_false]
      rw [ih (k + 1) (fun idx hidx => h idx (by omega))]

/-- Shifting a singleton consumed set together with the running index. -/
theorem dropConsumed_shift (a d : Nat) :
    ∀ (x : List (List Char)) (k : Nat),
      dropConsumed [a + d] (k + d) x = dropConsumed [a] k x := by
  intro x
  induction x with
  | nil => intro k; rfl
  | cons l ls ih =>
    intro k
    have hc : ([a + d] : List Nat).contains (k + d) = ([a] : List Nat).contains k := by
      by_cases he : k = a
      · subst he; simp
      · have h1 : ([a + d] : List Nat).contains (k + d) = false := by
          simp [List.contains_eq_any_beq]
          omega
        have h2 : ([a] : List Nat).contains k = false := by
          simp [List.contains_eq_any_beq]
          omega
        rw [h1, h2]
    simp only [dropConsumed, hc]
    by_cases h2 : ([a] : List Nat).contains k = true
    · simp only [h2, if_true]
      rw [show k + d + 1 = (k + 1) + d by omega, ih (k + 1)]
    · simp only [h2, Bool.false_eq_true, if_false]
      rw [show k + d + 1 = (k + 1) + d by omega, ih (k + 1)]

/-- getD at the length of a prefix reads the element after the prefix. -/
theorem getD_append_len :
    ∀ (pre : List (List Char)) (m : List Char) (post : List (List Char)),
      (pre ++ m :: post).getD pre.length [] = m := by
  intro pre
  induction pre with
  | nil => intro m post; rfl
  | cons l ls ih => intro m post; simpa using ih m post

/-- getD past the length of a prefix reads into the suffix. -/
theorem getD_append_len_succ :
    ∀ (pre : List (List Char)) (m : List Char) (post : List (List Char)) (j : Nat),
      (pre ++ m :: post).getD (pre.length + 1 + j) [] = post.getD j [] := by
  intro pre
  induction pre with
  | nil =>
    intro m post j
    show (m :: post).getD (0 + 1 + j) [] = post.getD j []
    rw [show 0 + 1 + j = j + 1 by omega]
    exact List.getD_cons_succ
  | cons l ls ih =>
    intro m post j
    show (l :: (ls ++ m :: post)).getD (ls.length + 1 + 1 + j) [] = _
    rw [show ls.length + 1 + 1 + j = (ls.length + 1 + j) + 1 by omega, List.getD_cons_succ]
    exact ih m post j

/-- find? only inspects the predicate on the members. -/
theorem find?_ext {p q : Nat → Bool} :
    ∀ {l : List Nat}, (∀ a ∈ l, p a = q a) → l.find? p = l.find? q := by
  intro l
  induction l with
  | nil => intro _; rfl
  | cons a t ih =>
    intro h
    have ha := h a (List.mem_cons_self a t)
    simp only [List.find?_cons, ha]
    by_cases hq : q a = true
    · simp [hq]
    · simp only [hq, Bool.false_eq_true, if_false]
      exact ih (fun b hb => h b (List.mem_cons_of_mem a hb))

/-- Extraction skips a blank prefix. -/
theorem extract_blank_lead :
    ∀ (pre : List (List Char)), (∀ l ∈ pre, isBlankLine l = true) →
      ∀ x, extractNonBlank (pre ++ x)
        = (extractNonBlank x).map (fun pr => (pr.1, pre ++ pr.2)) := by
  intro pre
  induction pre with
  | nil =>
    intro _ x
    simp only [List.nil_append]
    cases extractNonBlank x <;> rfl
  | cons l ls ih =>
    intro h x
    have hl := h l (List.mem_cons_self l ls)
    have hls := fun m hm => h m (List.mem_cons_of_mem l hm)
    show extractNonBlank (l :: (ls ++ x)) = _
    simp only [extractNonBlank, hl, if_true, ih hls x]
    cases extractNonBlank x <;> rfl

/-- The key search skips a blank prefix without using up the window. -/
theorem specFindKey_blank_lead :
    ∀ (pre : List (List Char)), (∀ l ∈ pre, isBlankLine l = true) →
      ∀ (c : Nat) (x : List (List Char)), specFindKey c (pre ++ x)
        = (specFindKey c x).map (fun pr => (pr.1, pre ++ pr.2)) := by
  intro pre
  induction pre with
  | nil =>
    intro _ c x
    simp only [List.nil_append]
    cases specFindKey c x <;> rfl
  | cons l ls ih =>
    intro h c x
    have hl := h l (List.mem_cons_self l ls)
    have hls := fun m hm => h m (List.mem_cons_of_mem l hm)
    show specFindKey c (l :: (ls ++ x)) = _
    simp only [specFindKey, hl, if_true, ih hls c x]
    cases specFindKey c x <;> rfl

/-- Documents without non-blank lines have nothing to extract. -/
theorem nonEmptyIdx_nil_extract :
    ∀ z : List (List Char), nonEmptyIdx z = [] → extractNonBlank z = none := by
  intro z
  induction z with
  | nil => intro _; rfl
  | cons l ls ih =>
    intro h
    by_cases hb : (pyStrip l).isEmpty = true
    · simp only [nonEmptyIdx, hb, if_true, List.map_eq_nil_iff] at h
      simp only [extractNonBlank, isBlankLine, hb, if_true, ih h]
      rfl
    · simp only [nonEmptyIdx, hb, Bool.false_eq_true, if_false] at h
      exact absurd h (by simp)

/-- The first non-blank index decomposes the document into a blank prefix,
the first non-blank line, and the rest; extraction and single-index
removal compute on this decomposition. -/
theorem nbPhase :
    ∀ (z : List (List Char)) (i : Nat) (rest : List Nat), nonEmptyIdx z = i :: rest →
      ∃ pre post, z = pre ++ z.getD i [] :: post
        ∧ (∀ l ∈ pre, isBlankLine l = true)
        ∧ pre.length = i
        ∧ isBlankLine (z.getD i []) = false
        ∧ rest = (nonEmptyIdx post).map (fun j => j + (i + 1))
        ∧ extractNonBlank z = some (pyStrip (z.getD i []), pre ++ post)
        ∧ dropConsumed [i] 0 z = pre ++ post := by
  intro z
  induction z with
  | nil => intro i rest h; simp [nonEmptyIdx] at h
  | cons l ls ih =>
    intro i rest h
    by_cases hb : (pyStrip l).isEmpty = true
    · simp only [nonEmptyIdx, hb, if_true] at h
      cases hne : nonEmptyIdx ls with
      | nil => rw [hne] at h; simp at h
      | cons i2 rest2 =>
        rw [hne] at h
        simp only [List.map_cons] at h
        have hi : i2 + 1 = i := congrArg (fun o => o.headD 0) h
        have hrest : rest2.map (fun j => j + 1) = rest := by
          have := congrArg List.tail h
          simpa using this
        obtain ⟨pre, post, hdec, hbl, hlen, hnb, hrest2, hext, hdrop⟩ := ih i2 rest2 hne
        have hget : (l :: ls).getD i [] = ls.getD i2 [] := by
          rw [← hi]; exact List.getD_cons_succ
        refine ⟨l :: pre, post, ?_, ?_, ?_, ?_, ?_, ?_, ?_⟩
        · rw [hget, List.cons_append, ← hdec]
        · intro m hm
          rcases List.mem_cons.mp hm with he | hm2
          · subst he; exact hb
          · exact hbl m hm2
        · simp [hlen, hi]
        · rw [hget]; exact hnb
        · rw [← hrest, hrest2, ← hi]
          simp only [List.map_map]
          apply List.map_congr_left
          intro a _
          simp only [Function.comp]
          omega
        · show extractNonBlank (l :: ls) = _
          simp only [extractNonBlank, isBlankLine, hb, if_true, hext, Option.map_some']
          rw [hget, List.cons_append]
        · show dropConsumed [i] 0 (l :: ls) = _
          have hc0 : ([i] : List Nat).contains 0 = false := by
            simp [List.contains_eq_any_beq]
            omega
          simp only [dropConsumed, hc0, Bool.false_eq_true, if_false]
          rw [← hi]
          have hsh := dropConsumed_shift i2 1 ls 0
          simp only [Nat.zero_add] at hsh
          rw [hsh, hdrop, List.cons_append]
    · simp only [nonEmptyIdx, hb, Bool.false_eq_true, if_false] at h
      have hi : i = 0 := (congrArg (fun o => o.headD 0) h).symm
      have hrest : rest = (nonEmptyIdx ls).map (fun j => j + 1) := by
        have := congrArg List.tail h
        simpa using this.symm
      subst hi
      refine ⟨[], ls, by simp, by simp, rfl, ?_, ?_, ?_, ?_⟩
      · simpa [isBlankLine] using hb
      · simpa using hrest
      · show extractNonBlank (l :: ls) = _
        simp only [extractNonBlank, isBlankLine, hb, Bool.false_eq_true, if_false,
          List.nil_append]
        rfl
      · show dropConsumed [0] 0 (l :: ls) = _
        have hc0 : ([0] : List Nat).contains 0 = true := by simp
        simp only [dropConsumed, hc0, if_true]
        rw [dropConsumed_no_hit [0] ls 1 (by intro j hj; simp at hj; omega)]
        simp

/-- The window search of the key loop agrees with the recursive search of
the specification: a failed search leaves the recursive search failing,
and a successful search at index i yields the normalized key value of the
line there with exactly that line removed. -/
theorem keyPhase :
    ∀ (z : List (List Char)) (count : Nat),
      ((((nonEmptyIdx z).take count).find?
          (fun i => (keyLineTail (z.getD i [])).isSome) = none)
        → specFindKey count z = none)
      ∧ (∀ i, ((nonEmptyIdx z).take count).find?
            (fun i => (keyLineTail (z.getD i [])).isSome) = some i →
          ∃ t, keyLineTail (z.getD i []) = some t
            ∧ specFindKey count z
                = some (normalize_key_value (keyGroup1 t), dropConsumed [i] 0 z)) := by
  intro z
  induction z with
  | nil =>
    intro count
    constructor
    · intro _; rfl
    · intro i h
      simp [nonEmptyIdx] at h
  | cons l ls ih =>
    intro count
    by_cases hb : (pyStrip l).isEmpty = true
    · have hchain : ((nonEmptyIdx (l :: ls)).take count).find?
            (fun i => (keyLineTail ((l :: ls).getD i [])).isSome)
          = (((nonEmptyIdx ls).take count).find?
              (fun i => (keyLineTail (ls.getD i [])).isSome)).map (fun j => j + 1) := by
        simp only [nonEmptyIdx, hb, if_true]
        rw [← List.map_take, List.find?_map]
        congr 1
      have hspec : specFindKey count (l :: ls)
          = (specFindKey count ls).map (fun pr => (pr.1, l :: pr.2)) := by
        show specFindKey count (l :: ls) = _
        simp only [specFindKey, isBlankLine, hb, if_true]
      constructor
      · intro h
        rw [hchain] at h
        have h2 : ((nonEmptyIdx ls).take count).find?
            (fun i => (keyLineTail (ls.getD i [])).isSome) = none := by
          cases hf : ((nonEmptyIdx ls).take count).find?
              (fun i => (keyLineTail (ls.getD i [])).isSome)
          · rfl
          · rw [hf] at h; simp at h
        rw [hspec, (ih count).1 h2]
        rfl
      · intro i h
        rw [hchain] at h
        cases hf : ((nonEmptyIdx ls).take count).find?
            (fun i => (keyLineTail (ls.getD i [])).isSome) with
        | none => rw [hf] at h; simp at h
        | some j =>
          rw [hf] at h
          simp only [Option.map_some'] at h
          have hij : j + 1 = i := Option.some.inj h
          obtain ⟨t, ht, hsp⟩ := (ih count).2 j hf
          refine ⟨t, ?_, ?_⟩
          · rw [← hij, List.getD_cons_succ]; exact ht
          · rw [hspec, hsp]
            simp only [Option.map_some']
            rw [← hij]
            have hc0 : ([j + 1] : List Nat).contains 0 = false := by
              simp [List.contains_eq_any_beq]
            have hsh := dropConsumed_shift j 1 ls 0
            simp only [Nat.zero_add] at hsh
            show some (_, l :: dropConsumed [j] 0 ls)
                = some (_, dropConsumed [j + 1] 0 (l :: ls))
            simp only [dropConsumed, hc0, Bool.false_eq_true, if_false, hsh]
    · cases count with
      | zero =>
        constructor
        · intro _
          show specFindKey 0 (l :: ls) = none
          simp [specFindKey, isBlankLine, hb]
        · intro i h
          simp at h
      | succ count =>
        have hne : nonEmptyIdx (l :: ls) = 0 :: (nonEmptyIdx ls).map (fun j => j + 1) := by
          simp [nonEmptyIdx, hb]
        cases hkt : keyLineTail l with
        | some t =>
          have hfind : ((nonEmptyIdx (l :: ls)).take (count + 1)).find?
              (fun i => (keyLineTail ((l :: ls).getD i [])).isSome) = some 0 := by
            rw [hne, List.take_succ_cons, List.find?_cons]
            have hp0 : (keyLineTail ((l :: ls).getD 0 [])).isSome = true := by
              simp [List.getD_cons_zero, hkt]
            rw [hp0]
          have hspec : specFindKey (count + 1) (l :: ls)
              = some (normalize_key_value (keyGroup1 t), ls) := by
            show specFindKey (count + 1) (l :: ls) = _
            simp [specFindKey, isBlankLine, hb, hkt]
          constructor
          · intro h
            rw [hfind] at h
            exact absurd h (by simp)
          · intro i h
            rw [hfind] at h
            have hi : (0 : Nat) = i := Option.some.inj h
            subst hi
            refine ⟨t, by simpa [List.getD_cons_zero] using hkt, ?_⟩
            rw [hspec]
            have hc0 : ([0] : List Nat).contains 0 = true := by simp
            have hdz : dropConsumed [0] 0 (l :: ls) = ls := by
              simp only [dropConsumed, hc0, if_true]
              exact dropConsumed_no_hit [0] ls 1 (by intro j hj; simp at hj; omega)
            rw [hdz]
        | none =>
          have hchain : ((nonEmptyIdx (l :: ls)).take (count + 1)).find?
                (fun i => (keyLineTail ((l :: ls).getD i [])).isSome)
              = (((nonEmptyIdx ls).take count).find?
                  (fun i => (keyLineTail (ls.getD i [])).isSome)).map (fun j => j + 1) := by
            rw [hne, List.take_succ_cons, List.find?_cons]
            have hp0 : (keyLineTail ((l :: ls).getD 0 [])).isSome = false := by
              simp [List.getD_cons_zero, hkt]
            rw [hp0]
            rw [← List.map_take, List.find?_map]
            congr 1
          have hspec : specFindKey (count + 1) (l :: ls)
              = (specFindKey count ls).map (fun pr => (pr.1, l :: pr.2)) := by
            show specFindKey (count + 1) (l :: ls) = _
            simp [specFindKey, isBlankLine, hb, hkt]
          constructor
          · intro h
            rw [hchain] at h
            have h2 : ((nonEmptyIdx ls).take count).find?
                (fun i => (keyLineTail (ls.getD i [])).isSome) = none := by
              cases hf : ((nonEmptyIdx ls).take count).find?
                  (fun i => (keyLineTail (ls.getD i [])).isSome)
              · rfl
              · rw [hf] at h; simp at h
            rw [hspec, (ih count).1 h2]
            rfl
          · intro i h
            rw [hchain] at h
            cases hf : ((nonEmptyIdx ls).take count).find?
                (fun i => (keyLineTail (ls.getD i [])).isSome) with
            | none => rw [hf] at h; simp at h
            | some j =>
              rw [hf] at h
              simp only [Option.map_some'] at h
              have hij : j + 1 = i := Option.some.inj h
              obtain ⟨t2, ht2, hsp⟩ := (ih count).2 j hf
              refine ⟨t2, ?_, ?_⟩
              · rw [← hij, List.getD_cons_succ]; exact ht2
              · rw [hspec, hsp]
                simp only [Option.map_some']
                rw [← hij]
                have hc0 : ([j + 1] : List Nat).contains 0 = false := by
                  simp [List.contains_eq_any_beq]
                have hsh := dropConsumed_shift j 1 ls 0
                simp only [Nat.zero_add] at hsh
                show some (_, l :: dropConsumed [j] 0 ls)
                    = some (_, dropConsumed [j + 1] 0 (l :: ls))
                simp only [dropConsumed, hc0, Bool.false_eq_true, if_false, hsh]

/-- The index-based normalization of prepare_chopro builds the same new
line list as the remove-based normalization of the specification whenever
the document has a non-blank line. -/
theorem build_eq_spec :
    ∀ lines : List (List Char), nonEmptyIdx lines ≠ [] →
      buildNormalized lines = spec_normalize lines := by
  intro lines hne
  cases hN : nonEmptyIdx lines with
  | nil => exact absurd hN hne
  | cons i0 rest0 =>
    obtain ⟨pre0, post0, hdec0, hblank0, hlen0, hnb0, hrest0, hext0, hdrop0⟩ :=
      nbPhase lines i0 rest0 hN
    have hTitle : inferredTitle lines = some (pyStrip (lines.getD i0 [])) := by
      unfold inferredTitle; rw [hN]
    unfold buildNormalized spec_normalize
    rw [hext0]
    dsimp only
    cases hN1 : nonEmptyIdx post0 with
    | nil =>
      have hrest_nil : rest0 = [] := by rw [hrest0, hN1]; rfl
      subst hrest_nil
      have hext1 : extractNonBlank (pre0 ++ post0) = none := by
        rw [extract_blank_lead pre0 hblank0 post0,
          nonEmptyIdx_nil_extract post0 hN1]
        rfl
      rw [hext1]
      have hArtist : inferredArtist lines = none := by
        unfold inferredArtist; rw [hN]
      have hKeyIdx : keyIdx lines = none := by
        unfold keyIdx; rw [hN]; rfl
      have hKey : inferredKey lines = none := by
        unfold inferredKey; rw [hKeyIdx]; rfl
      have hCons : consumedIdx lines = [i0] := by
        unfold consumedIdx; rw [hN, hKeyIdx]; rfl
      rw [hTitle, hArtist, hKey, hCons, hdrop0]
      simp [dirList]
    | cons j1 rest1 =>
      obtain ⟨pre1, post1, hdec1, hblank1, hlen1, hnb1, hrest1, hext1, hdrop1⟩ :=
        nbPhase post0 j1 rest1 hN1
      have hrest0' : rest0 = (j1 + (i0 + 1)) :: rest1.map (fun j => j + (i0 + 1)) := by
        rw [hrest0, hN1]; rfl
      have hget1 : ∀ m : Nat, lines.getD (i0 + 1 + m) [] = post0.getD m [] := by
        intro m
        conv_lhs => rw [hdec0]
        rw [← hlen0]
        exact getD_append_len_succ pre0 _ post0 m
      have hget2 : ∀ m : Nat, post0.getD (j1 + 1 + m) [] = post1.getD m [] := by
        intro m
        conv_lhs => rw [hdec1]
        rw [← hlen1]
        exact getD_append_len_succ pre1 _ post1 m
      have hArtist : inferredArtist lines = some (pyStrip (post0.getD j1 [])) := by
        unfold inferredArtist
        rw [hN, hrest0']
        have hh := hget1 j1
        rw [show i0 + 1 + j1 = j1 + (i0 + 1) by omega] at hh
        show some (pyStrip (lines.getD (j1 + (i0 + 1)) [])) = _
        rw [hh]
      have hext1' : extractNonBlank (pre0 ++ post0)
          = some (pyStrip (post0.getD j1 []), pre0 ++ (pre1 ++ post1)) := by
        rw [extract_blank_lead pre0 hblank0 post0, hext1]
        rfl
      rw [hext1']
      dsimp only
      have hWin : ((nonEmptyIdx lines).drop 2).take 6
          = ((nonEmptyIdx post1).take 6).map (fun j => j + (j1 + 1) + (i0 + 1)) := by
        rw [hN, hrest0']
        simp only [List.drop_succ_cons, List.drop_zero]
        rw [hrest1, List.map_map, ← List.map_take]
        rfl
      have hKeyIdx : keyIdx lines
          = (((nonEmptyIdx post1).take 6).find?
              (fun j => (keyLineTail (post1.getD j [])).isSome)).map
                (fun j => j + (j1 + 1) + (i0 + 1)) := by
        unfold keyIdx
        rw [hWin, List.find?_map]
        congr 1
        apply find?_ext
        intro a _
        simp only [Function.comp]
        have h1 : a + (j1 + 1) + (i0 + 1) = i0 + 1 + (j1 + 1 + a) := by omega
        rw [h1, hget1 (j1 + 1 + a), hget2 a]
      cases hw : ((nonEmptyIdx post1).take 6).find?
          (fun j => (keyLineTail (post1.getD j [])).isSome) with
      | none =>
        have hKI : keyIdx lines = none := by rw [hKeyIdx, hw]; rfl
        have hKey : inferredKey lines = none := by
          unfold inferredKey; rw [hKI]; rfl
        have hSpecKey : specFindKey 6 (pre0 ++ (pre1 ++ post1)) = none := by
          rw [specFindKey_blank_lead pre0 hblank0 6 _,
              specFindKey_blank_lead pre1 hblank1 6 _,
              (keyPhase post1 6).1 hw]
          rfl
        rw [hSpecKey]
        have hCons : consumedIdx lines = [i0, j1 + (i0 + 1)] := by
          unfold consumedIdx; rw [hN, hrest0', hKI]; rfl
        have hmiss0 : ∀ j ∈ ([i0, j1 + (i0 + 1)] : List Nat),
            j < 0 ∨ 0 + pre0.length ≤ j := by
          intro j hj
          rw [hlen0]
          simp at hj
          rcases hj with h | h <;> subst h <;> right <;> omega
        have hmiss1 : ∀ j ∈ ([i0, j1 + (i0 + 1)] : List Nat),
            j < i0 + 1 ∨ i0 + 1 + pre1.length ≤ j := by
          intro j hj
          rw [hlen1]
          simp at hj
          rcases hj with h | h <;> subst h <;> [left; right] <;> omega
        have hBody : dropConsumed [i0, j1 + (i0 + 1)] 0 lines
            = pre0 ++ (pre1 ++ post1) := by
          conv_lhs => rw [hdec0]
          rw [dropConsumed_append _ pre0 _ 0,
            dropConsumed_no_hit _ pre0 0 hmiss0, Nat.zero_add, hlen0]
          have hci : ([i0, j1 + (i0 + 1)] : List Nat).contains i0 = true := by simp
          simp only [dropConsumed, hci, if_true]
          conv_lhs => rw [hdec1]
          rw [dropConsumed_append _ pre1 _ (i0 + 1),
            dropConsumed_no_hit _ pre1 (i0 + 1) hmiss1, hlen1]
          have hci2 : ([i0, j1 + (i0 + 1)] : List Nat).contains (i0 + 1 + j1) = true := by
            simp
            omega
          simp only [dropConsumed, hci2, if_true]
          rw [dropConsumed_no_hit _ post1 (i0 + 1 + j1 + 1) (by
            intro j hj
            simp at hj
            rcases hj with h | h <;> subst h <;> left <;> omega)]
        rw [hTitle, hArtist, hKey, hCons, hBody]
        simp [dirList]
      | some jk =>
        obtain ⟨t, ht, hsp⟩ := (keyPhase post1 6).2 jk hw
        have hKI : keyIdx lines = some (jk + (j1 + 1) + (i0 + 1)) := by
          rw [hKeyIdx, hw]; rfl
        have hKey : inferredKey lines = some (normalize_key_value (keyGroup1 t)) := by
          unfold inferredKey
          rw [hKI]
          have h1 : jk + (j1 + 1) + (i0 + 1) = i0 + 1 + (j1 + 1 + jk) := by omega
          show (keyLineTail (lines.getD (jk + (j1 + 1) + (i0 + 1)) [])).map
              (fun t => normalize_key_value (keyGroup1 t)) = _
          rw [h1, hget1 (j1 + 1 + jk), hget2 jk, ht]
          rfl
        have hSpecKey : specFindKey 6 (pre0 ++ (pre1 ++ post1))
            = some (normalize_key_value (keyGroup1 t),
                pre0 ++ (pre1 ++ dropConsumed [jk] 0 post1)) := by
          rw [specFindKey_blank_lead pre0 hblank0 6 _,
              specFindKey_blank_lead pre1 hblank1 6 _, hsp]
          rfl
        rw [hSpecKey]
        have hCons : consumedIdx lines
            = [i0, j1 + (i0 + 1), jk + (j1 + 1) + (i0 + 1)] := by
          unfold consumedIdx; rw [hN, hrest0', hKI]; rfl
        have hmiss0 : ∀ j ∈ ([i0, j1 + (i0 + 1), jk + (j1 + 1) + (i0 + 1)] : List Nat),
            j < 0 ∨ 0 + pre0.length ≤ j := by
          intro j hj
          rw [hlen0]
          simp at hj
          rcases hj with h | h | h <;> subst h <;> right <;> omega
        have hmiss1 : ∀ j ∈ ([i0, j1 + (i0 + 1), jk + (j1 + 1) + (i0 + 1)] : List Nat),
            j < i0 + 1 ∨ i0 + 1 + pre1.length ≤ j := by
          intro j hj
          rw [hlen1]
          simp at hj
          rcases hj with h | h | h <;> subst h <;> [left; right; right] <;> omega
        have hBody : dropConsumed [i0, j1 + (i0 + 1), jk + (j1 + 1) + (i0 + 1)] 0 lines
            = pre0 ++ (pre1 ++ dropConsumed [jk] 0 post1) := by
          conv_lhs => rw [hdec0]
          rw [dropConsumed_append _ pre0 _ 0,
            dropConsumed_no_hit _ pre0 0 hmiss0, Nat.zero_add, hlen0]
          have hci : ([i0, j1 + (i0 + 1), jk + (j1 + 1) + (i0 + 1)] : List Nat).contains i0
              = true := by simp
          simp only [dropConsumed, hci, if_true]
          conv_lhs => rw [hdec1]
          rw [dropConsumed_append _ pre1 _ (i0 + 1),
            dropConsumed_no_hit _ pre1 (i0 + 1) hmiss1, hlen1]
          have hci2 : ([i0, j1 + (i0 + 1), jk + (j1 + 1) + (i0 + 1)] : List Nat).contains
              (i0 + 1 + j1) = true := by
            simp
            omega
          simp only [dropConsumed, hci2, if_true]
          have hagree : ∀ idx, i0 + 1 + j1 + 1 ≤ idx →
              ([i0, j1 + (i0 + 1), jk + (j1 + 1) + (i0 + 1)] : List Nat).contains idx
                = ([jk + (j1 + 1) + (i0 + 1)] : List Nat).contains idx := by
            intro idx hidx
            by_cases he : idx = jk + (j1 + 1) + (i0 + 1)
            · subst he
              have hL : ([i0, j1 + (i0 + 1), jk + (j1 + 1) + (i0 + 1)] : List Nat).contains
                  (jk + (j1 + 1) + (i0 + 1)) = true := by
                simp
              have hR : ([jk + (j1 + 1) + (i0 + 1)] : List Nat).contains
                  (jk + (j1 + 1) + (i0 + 1)) = true := by
                simp
              rw [hL, hR]
            · have hL : ([i0, j1 + (i0 + 1), jk + (j1 + 1) + (i0 + 1)] : List Nat).contains
                  idx = false := by
                simp [List.contains_eq_any_beq]
                omega
              have hR : ([jk + (j1 + 1) + (i0 + 1)] : List Nat).contains idx = false := by
                simp [List.contains_eq_any_beq]
                omega
              rw [hL, hR]
          rw [dropConsumed_congr _ [jk + (j1 + 1) + (i0 + 1)] post1 (i0 + 1 + j1 + 1) hagree]
          have hsh := dropConsumed_shift jk (i0 + 1 + j1 + 1) post1 0
          simp only [Nat.zero_add] at hsh
          rw [show jk + (j1 + 1) + (i0 + 1) = jk + (i0 + 1 + j1 + 1) by omega, hsh]
        rw [hTitle, hArtist, hKey, hCons, hBody]

/-! ## Claim theorem for the normalization pass -/

/-- C4: on every document whose first few non-blank lines contain no
directive, the normalization of prepare_chopro equals the pass the
specification describes: the first non-blank line is promoted to a title
directive, the second to an artist directive, the first loose key line
among the next six non-blank lines to a key directive, each promoted line
is removed from the body and the synthetic directives are placed on top;
at the text level the spec example document is normalized accordingly, and
a bracketed key value has its brackets stripped. -/
theorem C4_normalization :
    (∀ lines : List (List Char), hasDirectiveAtTop lines = false →
        prepare_chopro_lines lines = spec_normalize lines)
    ∧ prepare_chopro_text "Amazing Grace\nJohn Newton\n\nKey: G\n\nLyrics [G]here"
        = "\x7btitle: Amazing Grace\x7d\n\x7bartist: John Newton\x7d\n\x7bkey: G\x7d\n\n\nLyrics [G]here"
    ∧ prepare_chopro_text "T\nA\nKey: [G]\nbody"
        = "\x7btitle: T\x7d\n\x7bartist: A\x7d\n\x7bkey: G\x7d\nbody" := by
  refine ⟨?_, by decide, by decide⟩
  intro lines hd
  unfold prepare_chopro_lines
  by_cases h1 : lines.isEmpty = true
  · have hnil : lines = [] := List.isEmpty_iff.mp h1
    subst hnil
    simp [spec_normalize, extractNonBlank]
  · by_cases h2 : (nonEmptyIdx lines).isEmpty = true
    · have hne : nonEmptyIdx lines = [] := List.isEmpty_iff.mp h2
      have hextn := nonEmptyIdx_nil_extract lines hne
      simp only [h1, h2, hd, Bool.false_eq_true, if_false, if_true]
      unfold spec_normalize
      rw [hextn]
    · simp only [h1, h2, hd, Bool.false_eq_true, if_false]
      exact build_eq_spec lines (fun he => h2 (by simp [he]))

/-- C4 witness: the general statement applied to the lines of the spec
example document. -/
theorem C4_normalization_witness :
    hasDirectiveAtTop (pySplitlines
        ("Amazing Grace\nJohn Newton\n\nKey: G\n\nLyrics [G]here" : String).data) = false
    ∧ prepare_chopro_lines (pySplitlines
        ("Amazing Grace\nJohn Newton\n\nKey: G\n\nLyrics [G]here" : String).data)
      = spec_normalize (pySplitlines
        ("Amazing Grace\nJohn Newton\n\nKey: G\n\nLyrics [G]here" : String).data) :=
  ⟨by decide, C4_normalization.1 (pySplitlines
    ("Amazing Grace\nJohn Newton\n\nKey: G\n\nLyrics [G]here" : String).data) (by decide)⟩

end Offsong
